import Mathlib

/-!
Verification development for the Blooby encrypted document store.

The first half of this file is a shallow embedding of the repository's two
cores:

* the document query/update engine of `src/index.ts`
  (`matchesQuery`, `find`, `update`, `delete`, `applyUpdate`, ...), and
* the chunked authenticated-encryption codec of `src/features/encryption.ts`
  (`encryptData`, `encryptDataChunked`, `serializeEncryptedData`,
  `encryptAuto`, `decryptAuto`, ...).

JavaScript values are embedded as the inductive `Value`; JavaScript objects
are insertion-ordered association lists, matching the enumeration-order
semantics of `Object.entries` / `Object.values` used throughout the source.
External library calls (Node `crypto`, `JSON.stringify`/`JSON.parse`) are
modelled by concrete executable stand-ins, documented at each definition.
The second half contains the theorems about the embedded code.
-/

namespace Blooby

/-! ## JavaScript value model -/

/-- JavaScript values as they occur in documents and queries.  Numbers are
modelled as integers (the document data exercised by the specification is
integer-valued). -/
inductive Value where
  | vUndefined : Value
  | vNull : Value
  | vBool : Bool → Value
  | vNum : Int → Value
  | vStr : String → Value
  | vArr : List Value → Value
  | vObj : List (String × Value) → Value

/-- JavaScript truthiness (`undefined`, `null`, `false`, `0` and `""` are
falsy; objects and arrays are always truthy). -/
def truthy : Value → Bool
  | .vUndefined => false
  | .vNull => false
  | .vBool b => b
  | .vNum n => n ≠ 0
  | .vStr s => s ≠ ""
  | .vArr _ => true
  | .vObj _ => true

/-- JavaScript strict equality `===`.  Primitives compare structurally;
distinct object or array literals are never `===` (reference equality, and a
query condition is always a different reference than the stored value). -/
def jsEq : Value → Value → Bool
  | .vUndefined, .vUndefined => true
  | .vNull, .vNull => true
  | .vBool a, .vBool b => a == b
  | .vNum a, .vNum b => a == b
  | .vStr a, .vStr b => a == b
  | _, _ => false

/-- JavaScript `<` restricted to same-typed operands (number/number and
string/string); every other comparison is modelled as `false`, which is the
JavaScript result for comparisons involving `undefined` and other
NaN-producing coercions. -/
def jsLt : Value → Value → Bool
  | .vNum a, .vNum b => a < b
  | .vStr a, .vStr b => a < b
  | _, _ => false

/-- JavaScript `<=`; same modelling choices as `jsLt`. -/
def jsLe : Value → Value → Bool
  | .vNum a, .vNum b => a ≤ b
  | .vStr a, .vStr b => a ≤ b
  | _, _ => false

/-- JavaScript `>`; same modelling choices as `jsLt`. -/
def jsGt : Value → Value → Bool
  | .vNum a, .vNum b => a > b
  | .vStr a, .vStr b => a > b
  | _, _ => false

/-- JavaScript `>=`; same modelling choices as `jsLt`. -/
def jsGe : Value → Value → Bool
  | .vNum a, .vNum b => a ≥ b
  | .vStr a, .vStr b => a ≥ b
  | _, _ => false

mutual

/-- Executable structural size of a `Value`, used as recursion fuel. -/
def valueSize : Value → Nat
  | .vUndefined => 1
  | .vNull => 1
  | .vBool _ => 1
  | .vNum _ => 1
  | .vStr _ => 1
  | .vArr xs => 1 + valueListSize xs
  | .vObj fs => 1 + valueObjSize fs

/-- Size of a value list. -/
def valueListSize : List Value → Nat
  | [] => 0
  | v :: vs => valueSize v + valueListSize vs

/-- Size of an object field list. -/
def valueObjSize : List (String × Value) → Nat
  | [] => 0
  | (_, v) :: ps => valueSize v + valueObjSize ps

end

/-- Fuel-driven worker for `jsToString`; the fuel only serves to make the
recursion through nested arrays structural, and `jsToString` always supplies
enough of it. -/
def jsToStringFuel : Nat → Value → String
  | _, .vUndefined => "undefined"
  | _, .vNull => "null"
  | _, .vBool b => if b then "true" else "false"
  | _, .vNum n => toString n
  | _, .vStr s => s
  | _, .vObj _ => "[object Object]"
  | 0, .vArr _ => ""
  | f+1, .vArr xs =>
      String.intercalate ","
        (xs.map (fun v =>
          match v with
          | .vNull => ""
          | .vUndefined => ""
          | v => jsToStringFuel f v))

/-- JavaScript `String(value)` conversion (`Array.prototype.toString` joins
elements with `","`, rendering `null`/`undefined` elements as empty). -/
def jsToString (v : Value) : String := jsToStringFuel (valueSize v) v

/-- Numeric coercion used by `+` on non-string operands: booleans become
0/1 and `null` becomes 0.  (`undefined` yields NaN in JavaScript; it is
modelled as 0 here and is unreachable through the typed update interface,
whose `$inc` operands are numbers.) -/
def toNumber : Value → Int
  | .vNum n => n
  | .vBool b => if b then 1 else 0
  | _ => 0

/-- JavaScript `+`: number addition, or string concatenation when either
operand converts to a string primitive (strings, arrays, objects). -/
def jsPlus (a b : Value) : Value :=
  match a, b with
  | .vNum x, .vNum y => .vNum (x + y)
  | _, _ =>
    let stringy : Value → Bool := fun v =>
      match v with
      | .vStr _ => true
      | .vArr _ => true
      | .vObj _ => true
      | _ => false
    if stringy a || stringy b then .vStr (jsToString a ++ jsToString b)
    else .vNum (toNumber a + toNumber b)

/-! ## JavaScript objects as ordered association lists -/

/-- JavaScript plain objects: insertion-ordered key/value lists (string
keys), matching `Object.entries` enumeration order. -/
abbrev JSObj := List (String × Value)

/-- Property presence test (`key in obj`). -/
def hasKey (m : List (String × α)) (k : String) : Bool :=
  m.any (fun p => p.1 == k)

/-- Property read `obj[key]` (first matching key, as keys are unique in a
JavaScript object). -/
def objGet (m : List (String × α)) (k : String) : Option α :=
  (m.find? (fun p => p.1 == k)).map Prod.snd

/-- Property write `obj[key] = v`: replaces the value in place for an
existing key (JavaScript keeps the original key position) and appends a new
key at the end. -/
def objSet (m : List (String × α)) (k : String) (v : α) : List (String × α) :=
  if hasKey m k then m.map (fun p => if p.1 == k then (k, v) else p)
  else m ++ [(k, v)]

/-- Property removal `delete obj[key]`. -/
def objDelete (m : List (String × α)) (k : String) : List (String × α) :=
  m.filter (fun p => !(p.1 == k))

/-- `Object.values(obj)` in insertion order. -/
def objValues (m : List (String × α)) : List α :=
  m.map Prod.snd

/-- `Object.assign(target, source)` over two plain objects (the shape all
reachable calls in the source have). -/
def objAssign (target fields : JSObj) : JSObj :=
  fields.foldl (fun acc p => objSet acc p.1 p.2) target

/-- `Object.entries` of a `Value` when it is a plain object; other values
(unreachable through the typed update interface) contribute no entries. -/
def objEntriesOf : Value → JSObj
  | .vObj fs => fs
  | _ => []

/-! ## `Utils.getNestedValue`: dot-path traversal -/

/-- `String.prototype.split('.')` on the underlying character list
(`"a.b"` gives `["a","b"]`, `""` gives `[""]`, `"a."` gives `["a",""]`). -/
def splitDotChars : List Char → List (List Char)
  | [] => [[]]
  | c :: rest =>
      if c = '.' then [] :: splitDotChars rest
      else
        match splitDotChars rest with
        | g :: gs => (c :: g) :: gs
        | [] => [[c]]

/-- `path.split('.')` for `Utils.getNestedValue`. -/
def splitPath (path : String) : List String :=
  (splitDotChars path.data).map (fun cs => String.mk cs)

/-- One JavaScript property access `v[key]` as it behaves on each value
shape: object lookup, array numeric indexing plus `length`, string `length`
and character indexing; property access on remaining primitives yields
`undefined`. -/
def indexVal : Value → String → Value
  | .vObj fs, k => (objGet fs k).getD .vUndefined
  | .vArr xs, k =>
      if k = "length" then .vNum xs.length
      else
        match k.toNat? with
        | some i => xs.getD i .vUndefined
        | none => .vUndefined
  | .vStr s, k =>
      if k = "length" then .vNum s.length
      else
        match k.toNat? with
        | some i =>
            match s.data.get? i with
            | some c => .vStr (String.mk [c])
            | none => .vUndefined
        | none => .vUndefined
  | _, _ => .vUndefined

/-- The key loop of `Utils.getNestedValue`: a `null`/`undefined`
intermediate returns the default (`undefined`) immediately, otherwise the
walk continues with `result[key]`. -/
def getNestedKeys : Value → List String → Value
  | v, [] => v
  | .vNull, _ :: _ => .vUndefined
  | .vUndefined, _ :: _ => .vUndefined
  | v, k :: rest => getNestedKeys (indexVal v k) rest

/-- `Utils.getNestedValue(obj, path)` with the default value left
`undefined`, as every caller in the source does. -/
def getNestedValue (data : Value) (path : String) : Value :=
  getNestedKeys data (splitPath path)

/-! ## Query engine: `matchesQuery` -/

/-- One operator entry of a field condition's operator map, mirroring the
`switch` of `matchesQuery`; `qOther` covers keys hitting no `case` (the
switch has no default, so they are silently accepted). -/
inductive QOp where
  | qEq : Value → QOp
  | qNe : Value → QOp
  | qGt : Value → QOp
  | qGte : Value → QOp
  | qLt : Value → QOp
  | qLte : Value → QOp
  | qIn : Value → QOp
  | qNin : Value → QOp
  | qRegex : String → QOp
  | qExists : Value → QOp
  | qOther : String → Value → QOp

/-- Substring test standing in for `new RegExp(pattern).test(s)`: a
metacharacter-free pattern matches exactly when it occurs as a substring. -/
def regexTest (pat s : String) : Bool :=
  (List.range (s.length + 1)).any (fun i => pat.isPrefixOf (s.drop i))

/-- One `case` of the operator `switch` in `matchesQuery`, phrased as "this
operator does not cause `return false`". -/
def opHolds (value : Value) : QOp → Bool
  | .qEq v => jsEq value v
  | .qNe v => !(jsEq value v)
  | .qGt v => !(jsLe value v)
  | .qGte v => !(jsLt value v)
  | .qLt v => !(jsGe value v)
  | .qLte v => !(jsGt value v)
  | .qIn v =>
      match v with
      | .vArr xs => xs.any (fun e => jsEq e value)
      | _ => false
  | .qNin v =>
      match v with
      | .vArr xs => !(xs.any (fun e => jsEq e value))
      | _ => false
  | .qRegex pat => regexTest pat (jsToString value)
  | .qExists v =>
      if truthy v then !(jsEq value .vUndefined) else jsEq value .vUndefined
  | .qOther _ _ => true

/-- A field condition after the `Utils.isObject(condition)` dispatch of
`matchesQuery`: a non-object literal (strict-equality match) or an operator
map. -/
inductive FieldCond where
  | lit : Value → FieldCond
  | ops : List QOp → FieldCond

/-- One top-level entry of a `where` object: a logical operator key
(`$and`/`$or`/`$not`, each carrying an array of sub-queries) or a field
path with its condition.  A query is the entry list in object key order. -/
inductive QEntry where
  | qAnd : List (List QEntry) → QEntry
  | qOr : List (List QEntry) → QEntry
  | qNot : List (List QEntry) → QEntry
  | field : String → FieldCond → QEntry

mutual

/-- Executable structural size of a query entry, used as recursion fuel. -/
def qentrySize : QEntry → Nat
  | .qAnd subs => 1 + queryListSize subs
  | .qOr subs => 1 + queryListSize subs
  | .qNot subs => 1 + queryListSize subs
  | .field _ _ => 1

/-- Size of a query (a top-level entry list). -/
def querySize : List QEntry → Nat
  | [] => 0
  | e :: es => qentrySize e + querySize es

/-- Size of a list of sub-queries. -/
def queryListSize : List (List QEntry) → Nat
  | [] => 0
  | q :: qs => querySize q + queryListSize qs

end

/-- Fuel-driven worker for `matchesQuery`; the fuel only makes the nested
recursion structural and `matchesQuery` always supplies enough.  Note the
faithful early `return` on a logical-operator key: the loop over
`Object.entries(where)` returns that key's result immediately, skipping all
later keys. -/
def matchesQueryFuel : Nat → Value → List QEntry → Bool
  | _, _, [] => true
  | 0, _, _ :: _ => true
  | f+1, data, e :: rest =>
      match e with
      | .qAnd subs => subs.all (fun q => matchesQueryFuel f data q)
      | .qOr subs => subs.any (fun q => matchesQueryFuel f data q)
      | .qNot subs => !(subs.all (fun q => matchesQueryFuel f data q))
      | .field path cond =>
          let value := getNestedValue data path
          let pass :=
            match cond with
            | .lit v => jsEq value v
            | .ops os => os.all (fun op => opHolds value op)
          if pass then matchesQueryFuel f data rest else false

/-- `DatabaseInstance.matchesQuery(data, where)` (src/index.ts:802). -/
def matchesQuery (data : Value) (w : List QEntry) : Bool :=
  matchesQueryFuel (querySize w) data w

/-! ## Documents and collections -/

/-- `DocumentMetadata`; timestamps are abstract instants (`Nat`), `deleted`
models the optional flag with `undefined` read as `false`. -/
structure DocumentMetadata where
  createdAt : Nat
  updatedAt : Nat
  version : Nat
  deleted : Bool

/-- A stored document (`Document<T>` with its `data` a plain object). -/
structure Document where
  _id : String
  data : JSObj
  _meta : DocumentMetadata

/-- `CollectionMetadata` (the fields the embedded operations touch).
`documentCount` is an integer because the source freely decrements it. -/
structure CollectionMetadata where
  createdAt : Nat
  modifiedAt : Nat
  documentCount : Int

/-- A collection: `documents` is the id-keyed document map, in insertion
order. -/
structure Collection where
  name : String
  documents : List (String × Document)
  _meta : CollectionMetadata

/-! ## Update engine: `applyUpdate` and the CRUD operations -/

/-- `DatabaseInstance.applyUpdate(document, data)` acting on the document's
`data` object (src/index.ts:895).  The modifier branch is taken exactly when
the payload object has a `$set` key (`'$set' in data`); otherwise the
payload is `Object.assign`ed directly.  `$inc` computes
`(data[key] || 0) + value`. -/
def applyUpdate (data payload : JSObj) : JSObj :=
  if hasKey payload "$set" then
    let d1 :=
      match objGet payload "$set" with
      | some v => if truthy v then objAssign data (objEntriesOf v) else data
      | none => data
    let d2 :=
      match objGet payload "$unset" with
      | some v =>
          if truthy v then (objEntriesOf v).foldl (fun acc p => objDelete acc p.1) d1
          else d1
      | none => d1
    let d3 :=
      match objGet payload "$inc" with
      | some v =>
          if truthy v then
            (objEntriesOf v).foldl
              (fun acc p =>
                let cur := (objGet acc p.1).getD .vUndefined
                objSet acc p.1 (jsPlus (if truthy cur then cur else .vNum 0) p.2))
              d2
          else d2
      | none => d2
    d3
  else
    objAssign data payload

/-- The document refresh done by `update` after `applyUpdate`: bump
`updatedAt` and `version` (src/index.ts:551-553). -/
def updateDocNow (payload : JSObj) (now : Nat) (d : Document) : Document :=
  { d with
    data := applyUpdate d.data payload,
    _meta := { d._meta with updatedAt := now, version := d._meta.version + 1 } }

/-- `InsertResult` (the fields the source populates). -/
structure InsertResult where
  success : Bool
  insertedIds : List String
  insertedCount : Nat

/-- `UpdateResult`. -/
structure UpdateResult where
  success : Bool
  error : Option String
  matchedCount : Nat
  modifiedCount : Nat

/-- `DeleteResult`. -/
structure DeleteResult where
  success : Bool
  error : Option String
  deletedCount : Nat

/-- The fresh document record built by the insert operations
(`createdAt`/`updatedAt` now, version 1). -/
def freshDocument (_id : String) (data : JSObj) (now : Nat) : Document :=
  { _id := _id, data := data,
    _meta := { createdAt := now, updatedAt := now, version := 1, deleted := false } }

/-- `DatabaseInstance.insert(collection, data, customId)` (src/index.ts:345).
The inserted id (`customId || Utils.generateShortId()`) is passed in
explicitly, modelling the random id source.  A duplicate id throws
`DUPLICATE_ID`. -/
def insert (c : Collection) (data : JSObj) (_id : String) (now : Nat) :
    Except String (Collection × InsertResult) :=
  if hasKey c.documents _id then
    .error "DUPLICATE_ID"
  else
    .ok
      ({ c with
          documents := objSet c.documents _id (freshDocument _id data now),
          _meta := { c._meta with
                      documentCount := c._meta.documentCount + 1,
                      modifiedAt := now } },
        { success := true, insertedIds := [_id], insertedCount := 1 })

/-- `DatabaseInstance.insertMany(collection, dataArray)` (src/index.ts:396).
The generated ids are passed alongside each payload; the source performs no
duplicate check here and unconditionally adds `dataArray.length` to the
document count. -/
def insertMany (c : Collection) (items : List (String × JSObj)) (now : Nat) :
    Collection × InsertResult :=
  let newDocs :=
    items.foldl (fun m p => objSet m p.1 (freshDocument p.1 p.2 now)) c.documents
  ({ c with
      documents := newDocs,
      _meta := { c._meta with
                  documentCount := c._meta.documentCount + (items.length : Int),
                  modifiedAt := now } },
    { success := true, insertedIds := items.map Prod.fst, insertedCount := items.length })

/-- `DatabaseInstance.update(collection, where, data, options)`
(src/index.ts:534): filters the non-deleted matching documents, applies the
update to the first match (or to all of them when `multi`), bumping
`updatedAt`/`version` per document, and reports matched/modified counts. -/
def update (c : Collection) (w : List QEntry) (payload : JSObj) (multi : Bool) (now : Nat) :
    Collection × UpdateResult :=
  let documents :=
    (objValues c.documents).filter
      (fun d => !d._meta.deleted && matchesQuery (.vObj d.data) w)
  let toModify := if multi then documents else documents.take 1
  let newDocs :=
    toModify.foldl (fun m d => objSet m d._id (updateDocNow payload now d)) c.documents
  let modifiedCount := toModify.length
  ({ c with
      documents := newDocs,
      _meta :=
        if modifiedCount > 0 then { c._meta with modifiedAt := now } else c._meta },
    { success := true, error := none,
      matchedCount := documents.length, modifiedCount := modifiedCount })

/-- `DatabaseInstance.updateById(collection, id, data)` (src/index.ts:579):
plain `Object.assign` merge; a missing or soft-deleted id yields a failed
result with `error: 'Document not found'` (no exception). -/
def updateById (c : Collection) (id : String) (data : JSObj) (now : Nat) :
    Collection × UpdateResult :=
  match objGet c.documents id with
  | none =>
      (c, { success := false, error := some "Document not found",
            matchedCount := 0, modifiedCount := 0 })
  | some document =>
      if document._meta.deleted then
        (c, { success := false, error := some "Document not found",
              matchedCount := 0, modifiedCount := 0 })
      else
        let newMeta :=
          { document._meta with updatedAt := now, version := document._meta.version + 1 }
        let d' := { document with data := objAssign document.data data, _meta := newMeta }
        ({ c with
            documents := objSet c.documents id d',
            _meta := { c._meta with modifiedAt := now } },
          { success := true, error := none, matchedCount := 1, modifiedCount := 1 })

/-- `DatabaseInstance.delete(collection, where, options)` (src/index.ts:616):
only non-soft-deleted matches are considered; `hard` removes the entry and
decrements the document count, otherwise the document is flagged deleted;
without `multi` only the first match is processed. -/
def delete (c : Collection) (w : List QEntry) (hard multi : Bool) (now : Nat) :
    Collection × DeleteResult :=
  let documents :=
    (objValues c.documents).filter
      (fun d => !d._meta.deleted && matchesQuery (.vObj d.data) w)
  let toDelete := if multi then documents else documents.take 1
  let newDocs :=
    toDelete.foldl
      (fun m d =>
        if hard then objDelete m d._id
        else objSet m d._id
          { d with _meta := { d._meta with deleted := true, updatedAt := now } })
      c.documents
  let deletedCount := toDelete.length
  let newCount : Int :=
    if hard then c._meta.documentCount - (deletedCount : Int) else c._meta.documentCount
  let newModifiedAt : Nat := if deletedCount > 0 then now else c._meta.modifiedAt
  ({ c with
      documents := newDocs,
      _meta := { c._meta with documentCount := newCount, modifiedAt := newModifiedAt } },
    { success := true, error := none, deletedCount := deletedCount })

/-- `DatabaseInstance.deleteById(collection, id, hard)` (src/index.ts:666):
a missing or already soft-deleted id yields a failed result with
`error: 'Document not found'`. -/
def deleteById (c : Collection) (id : String) (hard : Bool) (now : Nat) :
    Collection × DeleteResult :=
  match objGet c.documents id with
  | none =>
      (c, { success := false, error := some "Document not found", deletedCount := 0 })
  | some document =>
      if document._meta.deleted then
        (c, { success := false, error := some "Document not found", deletedCount := 0 })
      else
        let newDocs :=
          if hard then objDelete c.documents id
          else objSet c.documents id
            { document with
              _meta := { document._meta with deleted := true, updatedAt := now } }
        let newCount : Int :=
          if hard then c._meta.documentCount - 1 else c._meta.documentCount
        ({ c with
            documents := newDocs,
            _meta := { c._meta with documentCount := newCount, modifiedAt := now } },
          { success := true, error := none, deletedCount := 1 })

/-! ## `find`: filter, sort, paginate, project -/

/-- Query options (`QueryOptions`); `includeDeleted` models the truthiness
of the optional flag. -/
structure QueryOptions where
  sort : Option (List (String × Int))
  limit : Option Nat
  skip : Option Int
  projection : Option (List String ⊕ List (String × Bool))
  includeDeleted : Bool

/-- The absent-options object (every optional chain evaluates to
`undefined`). -/
def emptyQueryOptions : QueryOptions :=
  { sort := none, limit := none, skip := none, projection := none, includeDeleted := false }

/-- `FindQuery` with its optional `where` and `options`. -/
structure FindQuery where
  where_ : Option (List QEntry)
  options : Option QueryOptions

/-- `FindResult` (`data` holds the projected result objects). -/
structure FindResult where
  success : Bool
  data : List JSObj
  totalCount : Nat
  hasMore : Bool

/-- The multi-key comparator of `DatabaseInstance.sortDocuments`
(src/index.ts:867), returning the JavaScript comparator value. -/
def sortCmp (sortKeys : List (String × Int)) (a b : Document) : Int :=
  match sortKeys with
  | [] => 0
  | (key, ord) :: rest =>
      let aVal := getNestedValue (.vObj a.data) key
      let bVal := getNestedValue (.vObj b.data) key
      if jsLt aVal bVal then (if ord = 1 then -1 else 1)
      else if jsGt aVal bVal then (if ord = 1 then 1 else -1)
      else sortCmp rest a b

/-- `DatabaseInstance.sortDocuments(documents, sort)`: a stable sort of a
copy of the list under the comparator (ECMAScript `Array.prototype.sort` is
stable). -/
def sortDocuments (documents : List Document) (sortKeys : List (String × Int)) :
    List Document :=
  List.insertionSort (fun a b => sortCmp sortKeys a b ≤ 0) documents

/-- `Utils.pick(obj, keys)`: copies the listed keys that are present, in
key-list order. -/
def pick (obj : JSObj) (keys : List String) : JSObj :=
  keys.foldl
    (fun acc k =>
      match objGet obj k with
      | some v => objSet acc k v
      | none => acc)
    []

/-- `DatabaseInstance.applyProjection(results, projection)`
(src/index.ts:883): inclusion by field-name list, or by the true-valued
keys of a boolean map. -/
def applyProjection (results : List JSObj)
    (projection : List String ⊕ List (String × Bool)) : List JSObj :=
  match projection with
  | .inl keys => results.map (fun doc => pick doc keys)
  | .inr m =>
      let includeKeys := (m.filter (fun p => p.2)).map Prod.fst
      results.map (fun doc => pick doc includeKeys)

/-- The result-object construction `{_id: doc._id, ...doc.data}` of `find`
(a spread lets a `_id` data field overwrite the document id, as in
JavaScript). -/
def spreadDoc (d : Document) : JSObj :=
  objAssign [("_id", Value.vStr d._id)] d.data

/-- `DatabaseInstance.find(collection, query)` (src/index.ts:440): filter by
`where`, drop soft-deleted unless included, count, sort, skip/limit
(`if (limit)` makes a zero limit a no-op), build result objects, project. -/
def find (c : Collection) (query : FindQuery) : FindResult :=
  let opts := query.options.getD emptyQueryOptions
  let documents := objValues c.documents
  let documents :=
    match query.where_ with
    | some w => documents.filter (fun d => matchesQuery (.vObj d.data) w)
    | none => documents
  let documents :=
    if opts.includeDeleted then documents
    else documents.filter (fun d => !d._meta.deleted)
  let totalCount := documents.length
  let documents :=
    match opts.sort with
    | some s => sortDocuments documents s
    | none => documents
  let skip : Int := opts.skip.getD 0
  let documents := if skip > 0 then documents.drop skip.toNat else documents
  let documents :=
    match opts.limit with
    | some l => if l ≠ 0 then documents.take l else documents
    | none => documents
  let results := documents.map spreadDoc
  let results :=
    match opts.projection with
    | some p => applyProjection results p
    | none => results
  { success := true, data := results, totalCount := totalCount,
    hasMore := decide (skip + (documents.length : Int) < (totalCount : Int)) }

/-- Specification-side description of `find`'s `totalCount` for the
refinement claim C8, written from the spec's words: the number of documents
matching the predicate and not excluded as soft-deleted, before any
pagination. -/
def findSpecTotalCount (c : Collection) (query : FindQuery) : Nat :=
  ((objValues c.documents).filter
    (fun d =>
      ((query.options.getD emptyQueryOptions).includeDeleted || !d._meta.deleted) &&
        (match query.where_ with
         | some w => matchesQuery (.vObj d.data) w
         | none => true))).length

/-! ## Encryption feature (src/features/encryption.ts)

Node's `crypto` library is an external collaborator.  It is modelled by
concrete executable stand-ins: hashing/key derivation as injective encodings
into ℕ, AES-256-GCM as an ideal invertible stream cipher, and the GCM
authentication tag as an injective MAC of (key, iv, ciphertext). -/

/-- A byte. -/
abbrev Byte := Fin 256

/-- Truncation of a natural number to a byte. -/
def byte (n : Nat) : Byte := ⟨n % 256, Nat.mod_lt _ (by norm_num)⟩

/-- Wrapping byte addition. -/
def byteAdd (a b : Byte) : Byte := byte (a.val + b.val)

/-- Wrapping byte subtraction (inverse of `byteAdd`). -/
def byteSub (a b : Byte) : Byte := byte (a.val + 256 - b.val)

/-- Injective encoding of a byte list into ℕ (bijective base-257
numeration). -/
def bytesToNat : List Byte → Nat
  | [] => 0
  | b :: l => (b.val + 1) + 257 * bytesToNat l

/-- Injective encoding of a character list into ℕ (bijective base-1114113
numeration over code points). -/
def charsToNat : List Char → Nat
  | [] => 0
  | c :: l => (c.toNat + 1) + 1114113 * charsToNat l

/-- `normalizeMasterKey(masterKey)` (encryption.ts:60): SHA-256 of the
UTF-8 passphrase, modelled as an injective encoding (derived keys are
opaque naturals in this model). -/
def normalizeMasterKey (masterKey : String) : Nat :=
  charsToNat masterKey.data

/-- `deriveKey(masterKey, salt, context)` (encryption.ts:73): PBKDF2-SHA256
over the normalized key salted with `salt ‖ UTF8(context)`, modelled as an
injective pairing of the three inputs. -/
def deriveKey (masterKey : String) (salt : List Byte) (context : String) : Nat :=
  Nat.pair (normalizeMasterKey masterKey)
    (Nat.pair (bytesToNat salt) (charsToNat context.data))

/-- The keystream byte the ideal cipher adds under (key, iv). -/
def keystreamByte (key : Nat) (iv : List Byte) : Byte :=
  byte (key + bytesToNat iv)

/-- `crypto.createCipheriv('aes-256-gcm', key, iv)` encryption of one
chunk, modelled as an ideal invertible stream cipher. -/
def aeadEncrypt (key : Nat) (iv : List Byte) (pt : List Byte) : List Byte :=
  pt.map (fun b => byteAdd b (keystreamByte key iv))

/-- The matching decryption direction. -/
def aeadDecrypt (key : Nat) (iv : List Byte) (ct : List Byte) : List Byte :=
  ct.map (fun b => byteSub b (keystreamByte key iv))

/-- The GCM authentication value over (key, iv, ciphertext), modelled as an
injective pairing. -/
def mac (key : Nat) (iv ct : List Byte) : Nat :=
  Nat.pair key (Nat.pair (bytesToNat iv) (bytesToNat ct))

/-- Little-endian byte digits of a natural number; the first argument is
recursion fuel, always supplied in sufficient amount by `natToBytes`. -/
def natToBytesAux : Nat → Nat → List Byte
  | 0, n => [byte n]
  | f+1, n => if n < 256 then [byte n] else byte (n % 256) :: natToBytesAux f (n / 256)

/-- The authentication-tag byte string of a MAC value (little-endian,
at least one byte, injective). -/
def natToBytes (n : Nat) : List Byte := natToBytesAux n n

/-- `EncryptedChunk` (encryption.ts:21). -/
structure EncryptedChunk where
  index : Nat
  iv : List Byte
  data : List Byte
  authTag : Option (List Byte)
deriving DecidableEq

/-- The `algorithm` union type `'aes-256-gcm' | 'aes-256-cbc'`. -/
inductive Alg where
  | aes256gcm : Alg
  | aes256cbc : Alg
deriving DecidableEq

/-- `EncryptionMetadata` (encryption.ts:10). -/
structure EncryptionMetadata where
  salt : List Byte
  algorithm : Alg
  chunkCount : Option Nat
  chunkSize : Option Nat
deriving DecidableEq

/-- `EncryptedData` (encryption.ts:32). -/
structure EncryptedData where
  metadata : EncryptionMetadata
  chunks : List EncryptedChunk
deriving DecidableEq

/-- The GCM tag verification performed by `decipher.final()` for a chunk
decrypted under the key derived with the given context: the stored tag must
equal the MAC of the ciphertext under (derived key, iv); an absent tag also
fails (GCM refuses to finalize without one). -/
def verifyChunk (masterKey : String) (salt : List Byte) (context : String)
    (c : EncryptedChunk) : Bool :=
  match c.authTag with
  | some t => t == natToBytes (mac (deriveKey masterKey salt context) c.iv c.data)
  | none => false

/-- `encryptData(data, masterKey)` (encryption.ts:228), the simple
non-chunked path; the random salt and IV of the crypto collaborator are
passed explicitly.  The derived key uses the empty context. -/
def encryptData (data : List Byte) (masterKey : String) (salt iv : List Byte) :
    EncryptedData :=
  let derivedKey := deriveKey masterKey salt ""
  let encrypted := aeadEncrypt derivedKey iv data
  let authTag := natToBytes (mac derivedKey iv encrypted)
  { metadata := { salt := salt, algorithm := .aes256gcm, chunkCount := none, chunkSize := none },
    chunks := [{ index := 0, iv := iv, data := encrypted, authTag := some authTag }] }

/-- `decryptData(encryptedData, masterKey)` (encryption.ts:261): decrypts
`chunks[0]`; a failing tag check is the caught exception rethrown as
"Decryption failed" (the spec's `IntegrityError`); an empty chunk list is
the `TypeError` the JavaScript would raise reading `chunks[0].iv`. -/
def decryptData (encryptedData : EncryptedData) (masterKey : String) :
    Except String (List Byte) :=
  match encryptedData.chunks.head? with
  | none => .error "TypeError"
  | some chunk =>
      if verifyChunk masterKey encryptedData.metadata.salt "" chunk then
        .ok (aeadDecrypt (deriveKey masterKey encryptedData.metadata.salt "")
          chunk.iv chunk.data)
      else .error "Decryption failed: Invalid key or corrupted data"

/-- The loop body of `encryptDataChunked` for chunk `i`: slice
`[i*chunkSize, min((i+1)*chunkSize, len))`, derive the key with context
`"chunk_" + i`, encrypt under the chunk's own IV and attach the tag. -/
def encChunk (data : List Byte) (masterKey : String) (chunkSize : Nat)
    (salt : List Byte) (ivs : Nat → List Byte) (i : Nat) : EncryptedChunk :=
  let chunkData := (data.drop (i * chunkSize)).take chunkSize
  let derivedKey := deriveKey masterKey salt ("chunk_" ++ toString i)
  let iv := ivs i
  let encrypted := aeadEncrypt derivedKey iv chunkData
  { index := i, iv := iv, data := encrypted,
    authTag := some (natToBytes (mac derivedKey iv encrypted)) }

/-- `encryptDataChunked(data, masterKey, chunkSize)` (encryption.ts:121):
`ceil(len/chunkSize)` contiguous chunks in order, each built by
`encChunk`. -/
def encryptDataChunked (data : List Byte) (masterKey : String) (chunkSize : Nat)
    (salt : List Byte) (ivs : Nat → List Byte) : EncryptedData :=
  let totalChunks := (data.length + chunkSize - 1) / chunkSize
  { metadata := { salt := salt, algorithm := .aes256gcm,
                  chunkCount := some totalChunks, chunkSize := some chunkSize },
    chunks := (List.range totalChunks).map (encChunk data masterKey chunkSize salt ivs) }

/-- The chunk loop of `decryptDataChunked`: derive the per-index key,
verify-and-decrypt, and abort the whole decryption on the first chunk whose
authentication fails. -/
def decryptChunksLoop (masterKey : String) (salt : List Byte) :
    List EncryptedChunk → Except String (List (List Byte))
  | [] => .ok []
  | chunk :: rest =>
      if verifyChunk masterKey salt ("chunk_" ++ toString chunk.index) chunk then
        match decryptChunksLoop masterKey salt rest with
        | .ok tl =>
            .ok (aeadDecrypt (deriveKey masterKey salt ("chunk_" ++ toString chunk.index))
              chunk.iv chunk.data :: tl)
        | .error e => .error e
      else
        .error ("Decryption failed for chunk " ++ toString chunk.index
          ++ ": Invalid key or corrupted data")

/-- `decryptDataChunked(encryptedData, masterKey)` (encryption.ts:182):
sorts the chunks by `index` (`chunks.sort((a,b) => a.index - b.index)`, a
stable sort), decrypts each in order failing fast, and concatenates the
plaintexts in ascending index order. -/
def decryptDataChunked (encryptedData : EncryptedData) (masterKey : String) :
    Except String (List Byte) :=
  let chunks := List.insertionSort (fun a b => a.index ≤ b.index) encryptedData.chunks
  match decryptChunksLoop masterKey encryptedData.metadata.salt chunks with
  | .ok parts => .ok parts.flatten
  | .error e => .error e

/-! ## Wire format -/

/-- `buffer.writeUInt32BE(n)`. -/
def writeU32 (n : Nat) : List Byte :=
  [byte (n / 16777216), byte (n / 65536), byte (n / 256), byte n]

/-- `buffer.writeUInt16BE(n)`. -/
def writeU16 (n : Nat) : List Byte :=
  [byte (n / 256), byte n]

/-- `buffer.readUInt32BE` as prefix consumption; fewer than 4 remaining
bytes is the `RangeError` the JavaScript read would throw. -/
def parseU32 : List Byte → Option (Nat × List Byte)
  | a :: b :: c :: d :: rest =>
      some (a.val * 16777216 + b.val * 65536 + c.val * 256 + d.val, rest)
  | _ => none

/-- `buffer.readUInt16BE` as prefix consumption. -/
def parseU16 : List Byte → Option (Nat × List Byte)
  | a :: b :: rest => some (a.val * 256 + b.val, rest)
  | _ => none

/-- Encoding of the `algorithm` union member. -/
def algByte : Alg → Byte
  | .aes256gcm => byte 0
  | .aes256cbc => byte 1

/-- Decoding of the `algorithm` union member. -/
def parseAlg (b : Byte) : Option Alg :=
  if b.val = 0 then some .aes256gcm
  else if b.val = 1 then some .aes256cbc
  else none

/-- Encoding of an optional numeric metadata field (JSON drops the key for
`undefined`). -/
def encOptNat : Option Nat → List Byte
  | none => [byte 0]
  | some n => byte 1 :: writeU32 n

/-- Decoding of an optional numeric metadata field. -/
def parseOptNat : List Byte → Option (Option Nat × List Byte)
  | [] => none
  | b :: rest =>
      if b.val = 0 then some (none, rest)
      else
        match parseU32 rest with
        | some (n, rest') => some (some n, rest')
        | none => none

/-- Byte encoding of the metadata record.  This stands in for the external
`JSON.stringify({salt: base64(salt), algorithm, chunkCount, chunkSize})`
library call of `serializeEncryptedData`: a concrete invertible encoding of
the same four fields. -/
def encodeMetadata (m : EncryptionMetadata) : List Byte :=
  writeU32 m.salt.length ++ m.salt ++ [algByte m.algorithm]
    ++ encOptNat m.chunkCount ++ encOptNat m.chunkSize

/-- Stand-in for the `JSON.parse` of `deserializeEncryptedData`, inverse of
`encodeMetadata`; malformed metadata is a parse failure. -/
def decodeMetadata (s : List Byte) : Option EncryptionMetadata :=
  match parseU32 s with
  | none => none
  | some (saltLen, s1) =>
      let salt := s1.take saltLen
      let s2 := s1.drop saltLen
      match s2 with
      | [] => none
      | ab :: s3 =>
          match parseAlg ab with
          | none => none
          | some alg =>
              match parseOptNat s3 with
              | none => none
              | some (cc, s4) =>
                  match parseOptNat s4 with
                  | none => none
                  | some (cs, _) =>
                      some { salt := salt, algorithm := alg, chunkCount := cc, chunkSize := cs }

/-- One chunk record of the wire format:
`[index u32][ivLen u16][iv][tagLen u16][tag][dataLen u32][data]`, a zero
tag length meaning an absent tag (encryption.ts:311-341). -/
def serializeChunk (chunk : EncryptedChunk) : List Byte :=
  writeU32 chunk.index ++ writeU16 chunk.iv.length ++ chunk.iv
    ++ (match chunk.authTag with
        | some t => writeU16 t.length ++ t
        | none => writeU16 0)
    ++ writeU32 chunk.data.length ++ chunk.data

/-- `serializeEncryptedData(encryptedData)` (encryption.ts:293):
`[metadataLength u32][metadata][chunk records in list order]`. -/
def serializeEncryptedData (encryptedData : EncryptedData) : List Byte :=
  let metadataBuffer := encodeMetadata encryptedData.metadata
  writeU32 metadataBuffer.length ++ metadataBuffer
    ++ (encryptedData.chunks.map serializeChunk).flatten

/-- Reading one chunk record back (encryption.ts:375-401). -/
def parseChunk (s : List Byte) : Option (EncryptedChunk × List Byte) :=
  match parseU32 s with
  | none => none
  | some (index, s1) =>
      match parseU16 s1 with
      | none => none
      | some (ivLength, s2) =>
          let iv := s2.take ivLength
          let s3 := s2.drop ivLength
          match parseU16 s3 with
          | none => none
          | some (authTagLength, s4) =>
              let authTag := if authTagLength > 0 then some (s4.take authTagLength) else none
              let s5 := if authTagLength > 0 then s4.drop authTagLength else s4
              match parseU32 s5 with
              | none => none
              | some (dataLength, s6) =>
                  some ({ index := index, iv := iv, data := s6.take dataLength,
                          authTag := authTag }, s6.drop dataLength)

/-- The chunk-record loop of `deserializeEncryptedData`. -/
def parseChunks : Nat → List Byte → Option (List EncryptedChunk × List Byte)
  | 0, s => some ([], s)
  | n+1, s =>
      match parseChunk s with
      | none => none
      | some (c, s') =>
          match parseChunks n s' with
          | none => none
          | some (cs, s'') => some (c :: cs, s'')

/-- The chunk-record count `metadata.chunkCount || 1` read by
`deserializeEncryptedData` (a stored zero is falsy). -/
def chunkCountRead (m : EncryptionMetadata) : Nat :=
  match m.chunkCount with
  | some n => if n = 0 then 1 else n
  | none => 1

/-- `deserializeEncryptedData(buffer)` (encryption.ts:353); trailing bytes
are ignored, reads past the end fail (`FormatError`). -/
def deserializeEncryptedData (buffer : List Byte) : Option EncryptedData :=
  match parseU32 buffer with
  | none => none
  | some (metadataLength, s1) =>
      match decodeMetadata (s1.take metadataLength) with
      | none => none
      | some metadata =>
          match parseChunks (chunkCountRead metadata) (s1.drop metadataLength) with
          | none => none
          | some (chunks, _) => some { metadata := metadata, chunks := chunks }

/-- `encryptAuto(data, masterKey, chunkSize)` (encryption.ts:419): simple
encryption when `data.length <= chunkSize`, else chunked; the result is
serialized immediately.  The random salt and the per-chunk IV source are
passed explicitly. -/
def encryptAuto (data : List Byte) (masterKey : String) (chunkSize : Nat)
    (salt : List Byte) (ivs : Nat → List Byte) : List Byte :=
  if data.length ≤ chunkSize then
    serializeEncryptedData (encryptData data masterKey salt (ivs 0))
  else
    serializeEncryptedData (encryptDataChunked data masterKey chunkSize salt ivs)

/-- The container value `encryptAuto` serializes (proof-side name for the
branch `encryptAuto` takes). -/
def encAutoContainer (data : List Byte) (masterKey : String) (chunkSize : Nat)
    (salt : List Byte) (ivs : Nat → List Byte) : EncryptedData :=
  if data.length ≤ chunkSize then encryptData data masterKey salt (ivs 0)
  else encryptDataChunked data masterKey chunkSize salt ivs

/-- `decryptAuto(encryptedBuffer, masterKey)` (encryption.ts:440):
deserialize, then chunked decryption iff `chunkCount` is present and `> 1`,
else simple decryption.  A deserialization failure models the thrown
format error. -/
def decryptAuto (encryptedBuffer : List Byte) (masterKey : String) :
    Except String (List Byte) :=
  match deserializeEncryptedData encryptedBuffer with
  | none => .error "FormatError"
  | some encryptedData =>
      match encryptedData.metadata.chunkCount with
      | some n =>
          if n > 1 then decryptDataChunked encryptedData masterKey
          else decryptData encryptedData masterKey
      | none => decryptData encryptedData masterKey

/-- Whether a decryption outcome is an error. -/
def isFailure : Except String (List Byte) → Bool
  | .error _ => true
  | .ok _ => false

/-! ## Wire-format bounds (proof-side)

The serializer stores lengths in fixed-width big-endian fields; these
decidable predicates say a container's components fit those fields (the
real code throws on oversized `writeUIntBE` arguments, so round-trip
statements assume them). -/

/-- The fixed-width fields of one chunk record can represent the chunk. -/
def chunkFits (c : EncryptedChunk) : Bool :=
  decide (c.index < 4294967296) && decide (c.iv.length < 65536)
    && decide (c.data.length < 4294967296)
    && (match c.authTag with
        | some t => decide (0 < t.length) && decide (t.length < 65536)
        | none => true)

/-- The metadata encoding fits its length fields. -/
def metadataFits (m : EncryptionMetadata) : Bool :=
  decide (m.salt.length < 4294967296)
    && (match m.chunkCount with
        | some n => decide (n < 4294967296)
        | none => true)
    && (match m.chunkSize with
        | some n => decide (n < 4294967296)
        | none => true)
    && decide ((encodeMetadata m).length < 4294967296)

/-- A container round-trips through the wire format: all components fit
their fields and the stored chunk count describes the chunk list. -/
def wellFormedED (ed : EncryptedData) : Bool :=
  metadataFits ed.metadata && ed.chunks.all chunkFits
    && (chunkCountRead ed.metadata == ed.chunks.length)

/-! ## Operation sequences over one collection (for the documentCount
invariant) -/

/-- One mutating document operation, with the ids the random id source
produces passed explicitly. -/
inductive DbOp where
  | opInsert : String → JSObj → Nat → DbOp
  | opInsertMany : List (String × JSObj) → Nat → DbOp
  | opUpdate : List QEntry → JSObj → Bool → Nat → DbOp
  | opUpdateById : String → JSObj → Nat → DbOp
  | opDelete : List QEntry → Bool → Bool → Nat → DbOp
  | opDeleteById : String → Bool → Nat → DbOp

/-- Running one operation for its collection effect (a thrown
`DUPLICATE_ID` leaves the collection untouched). -/
def applyOp (c : Collection) : DbOp → Collection
  | .opInsert id data now =>
      match insert c data id now with
      | .ok (c', _) => c'
      | .error _ => c
  | .opInsertMany items now => (insertMany c items now).1
  | .opUpdate w payload multi now => (update c w payload multi now).1
  | .opUpdateById id data now => (updateById c id data now).1
  | .opDelete w hard multi now => (delete c w hard multi now).1
  | .opDeleteById id hard now => (deleteById c id hard now).1

/-- Running a sequence of operations. -/
def applyOps (c : Collection) (ops : List DbOp) : Collection :=
  ops.foldl applyOp c

/-- The collection representation invariant: document-map keys are unique,
each entry's key is its document's `_id`, and `documentCount` equals the
number of entries (soft-deleted included). -/
def collInv (c : Collection) : Prop :=
  (c.documents.map Prod.fst).Nodup
    ∧ (∀ p ∈ c.documents, p.2._id = p.1)
    ∧ c._meta.documentCount = (c.documents.length : Int)

/-- The ideal-randomness assumption for one operation: `insertMany`'s
generated ids are pairwise distinct and absent from the collection (the
source performs no duplicate check there and relies on its random
21-character ids).  Every other operation needs no assumption. -/
def opFresh (c : Collection) : DbOp → Prop
  | .opInsertMany items _ =>
      (items.map Prod.fst).Nodup ∧ ∀ p ∈ items, hasKey c.documents p.1 = false
  | _ => True

/-- The ideal-randomness assumption along a whole operation sequence. -/
def opsFresh : Collection → List DbOp → Prop
  | _, [] => True
  | c, op :: rest => opFresh c op ∧ opsFresh (applyOp c op) rest

/-! ## Further proof-side definitions -/

/-- Little-endian decoding of a byte list, the inverse direction of
`natToBytes` (used to prove the tag encoding injective). -/
def bytesToNatLE : List Byte → Nat
  | [] => 0
  | b :: l => b.val + 256 * bytesToNatLE l

/-- Whether a top-level query entry is a field entry (not a logical
operator). -/
def isFieldEntry : QEntry → Bool
  | .field _ _ => true
  | _ => false

/-! ## Concrete instances used by witnesses and counterexamples -/

/-- A live document with data `{x: 1}`. -/
def exDocX : Document :=
  { _id := "a", data := [("x", Value.vNum 1)],
    _meta := { createdAt := 0, updatedAt := 0, version := 1, deleted := false } }

/-- A collection holding only `exDocX`. -/
def exCollLive : Collection :=
  { name := "t", documents := [("a", exDocX)],
    _meta := { createdAt := 0, modifiedAt := 0, documentCount := 1 } }

/-- A collection whose only document has been soft-deleted. -/
def exCollDel : Collection :=
  { name := "t",
    documents := [("a", { exDocX with
      _meta := { exDocX._meta with deleted := true, updatedAt := 3 } })],
    _meta := { createdAt := 0, modifiedAt := 3, documentCount := 1 } }

/-- The three documents of the specification's query-engine example:
`{_id:"a",x:1}`, `{_id:"b",x:5}` and the soft-deleted `{_id:"c",x:10}`. -/
def exCollABC : Collection :=
  { name := "t",
    documents :=
      [("a", { _id := "a", data := [("x", Value.vNum 1)],
               _meta := { createdAt := 0, updatedAt := 0, version := 1, deleted := false } }),
       ("b", { _id := "b", data := [("x", Value.vNum 5)],
               _meta := { createdAt := 0, updatedAt := 0, version := 1, deleted := false } }),
       ("c", { _id := "c", data := [("x", Value.vNum 10)],
               _meta := { createdAt := 0, updatedAt := 0, version := 1, deleted := true } })],
    _meta := { createdAt := 0, modifiedAt := 0, documentCount := 3 } }

/-- The `where` object `{x: {$gte: 5}}`. -/
def exWhereGte5 : List QEntry :=
  [QEntry.field "x" (FieldCond.ops [QOp.qGte (Value.vNum 5)])]

/-- Concrete plaintext, salt and IV source for the encryption witnesses. -/
def exData : List Byte := [byte 1, byte 2, byte 3]

/-- Concrete salt. -/
def exSalt : List Byte := [byte 9]

/-- Concrete per-chunk IV source. -/
def exIvs : Nat → List Byte := fun i => [byte i]

/-- An empty collection. -/
def exCollEmpty : Collection :=
  { name := "t", documents := [],
    _meta := { createdAt := 0, modifiedAt := 0, documentCount := 0 } }

/-- A chunk whose stored tag does not verify (its tag is a 1-byte value,
never produced by the model's MAC for this content). -/
def exBadChunk : EncryptedChunk :=
  { index := 0, iv := [byte 7], data := [byte 100], authTag := some [byte 1] }

/-- A container holding the non-verifying chunk. -/
def exBadED : EncryptedData :=
  { metadata := { salt := [byte 9], algorithm := .aes256gcm,
                  chunkCount := some 1, chunkSize := none },
    chunks := [exBadChunk] }

/-- A concrete operation sequence exercising insert, insertMany, update,
soft delete and hard delete. -/
def exOps : List DbOp :=
  [ DbOp.opInsert "a" [("x", Value.vNum 1)] 1,
    DbOp.opInsertMany [("b", [("x", Value.vNum 5)]), ("c", [("x", Value.vNum 10)])] 2,
    DbOp.opUpdate [QEntry.field "x" (FieldCond.lit (Value.vNum 1))] [("y", Value.vNum 2)] false 3,
    DbOp.opDelete [QEntry.field "x" (FieldCond.lit (Value.vNum 10))] false false 4,
    DbOp.opDeleteById "b" true 5 ]

end Blooby

namespace Blooby

/-! # Theorems

General lemmas about the embedded operations, followed by one theorem per
claim (with its witness or counterexample). -/

/-! ## Association-list (JavaScript object) lemmas -/

theorem hasKey_cons (p : String × α) (m : List (String × α)) (k : String) :
    hasKey (p :: m) k = ((p.1 == k) || hasKey m k) := by
  simp [hasKey]

theorem objGet_cons (p : String × α) (m : List (String × α)) (k : String) :
    objGet (p :: m) k = if (p.1 == k) then some p.2 else objGet m k := by
  unfold objGet
  cases h : (p.1 == k) <;> simp [List.find?_cons, h]

theorem hasKey_eq_false_iff (m : List (String × α)) (k : String) :
    hasKey m k = false ↔ ∀ p ∈ m, p.1 ≠ k := by
  simp [hasKey, List.any_eq_false]

theorem hasKey_of_mem {m : List (String × α)} {p : String × α} (h : p ∈ m) :
    hasKey m p.1 = true := by
  refine List.any_eq_true.mpr ⟨p, h, ?_⟩
  simp

theorem objGet_eq_none_of_hasKey_eq_false {m : List (String × α)} {k : String}
    (h : hasKey m k = false) : objGet m k = none := by
  unfold objGet
  have hfind : List.find? (fun p => p.1 == k) m = none := by
    rw [List.find?_eq_none]
    intro p hp
    simpa using (hasKey_eq_false_iff m k).mp h p hp
  rw [hfind]
  rfl

theorem hasKey_of_objGet_eq_some {m : List (String × α)} {k : String} {v : α}
    (h : objGet m k = some v) : hasKey m k = true := by
  by_contra hfalse
  rw [objGet_eq_none_of_hasKey_eq_false (Bool.eq_false_iff.mpr hfalse)] at h
  exact Option.noConfusion h

theorem objGet_mem_of_eq_some {m : List (String × α)} {k : String} {v : α}
    (h : objGet m k = some v) : (k, v) ∈ m := by
  unfold objGet at h
  cases hfind : List.find? (fun p => p.1 == k) m with
  | none => rw [hfind] at h; exact Option.noConfusion h
  | some p =>
      rw [hfind] at h
      have hp : p ∈ m := List.mem_of_find?_eq_some hfind
      have hpk : p.1 = k := by
        have := List.find?_some hfind
        simpa using this
      have hpv : p.2 = v := by simpa using h
      rw [← hpk, ← hpv]
      exact hp

theorem objSet_eq_append_of_hasKey_eq_false {m : List (String × α)} {k : String}
    (h : hasKey m k = false) (v : α) : objSet m k v = m ++ [(k, v)] := by
  simp [objSet, h]

theorem map_fst_map_replace (m : List (String × α)) (k : String) (v : α) :
    (m.map (fun p => if p.1 == k then (k, v) else p)).map Prod.fst = m.map Prod.fst := by
  rw [List.map_map]
  apply List.map_congr_left
  intro p _
  by_cases h : p.1 = k
  · simp [Function.comp, beq_iff_eq.mpr h, h]
  · simp [Function.comp, beq_eq_false_iff_ne.mpr h]

theorem objSet_map_fst_of_hasKey {m : List (String × α)} {k : String}
    (h : hasKey m k = true) (v : α) : (objSet m k v).map Prod.fst = m.map Prod.fst := by
  simp only [objSet, h, if_true]
  exact map_fst_map_replace m k v

theorem objSet_length_of_hasKey {m : List (String × α)} {k : String}
    (h : hasKey m k = true) (v : α) : (objSet m k v).length = m.length := by
  have := congrArg List.length (objSet_map_fst_of_hasKey h v)
  simpa using this

theorem hasKey_eq_any_map (m : List (String × α)) (k : String) :
    hasKey m k = (m.map Prod.fst).any (fun x => x == k) := by
  unfold hasKey
  induction m with
  | nil => rfl
  | cons p rest ih => simp [List.any_cons, ih]

theorem hasKey_objSet (m : List (String × α)) (k k' : String) (v : α) :
    hasKey (objSet m k v) k' = (hasKey m k' || (k == k')) := by
  by_cases h : hasKey m k
  · rw [hasKey_eq_any_map, objSet_map_fst_of_hasKey h, ← hasKey_eq_any_map]
    by_cases hkk : k = k'
    · subst hkk
      simp [h]
    · simp [beq_eq_false_iff_ne.mpr hkk]
  · rw [objSet_eq_append_of_hasKey_eq_false (Bool.eq_false_iff.mpr h)]
    unfold hasKey
    rw [List.any_append]
    simp [hasKey]

theorem objGet_map_replace_self {m : List (String × α)} {k : String}
    (h : hasKey m k = true) (v : α) :
    objGet (m.map (fun p => if p.1 == k then (k, v) else p)) k = some v := by
  induction m with
  | nil => simp [hasKey] at h
  | cons p rest ih =>
      rw [List.map_cons]
      by_cases hpk : p.1 = k
      · rw [if_pos (beq_iff_eq.mpr hpk), objGet_cons]
        simp
      · rw [if_neg (by simpa using hpk), objGet_cons,
          if_neg (by simpa using hpk)]
        apply ih
        rw [hasKey_cons] at h
        simpa [beq_eq_false_iff_ne.mpr hpk] using h

theorem objGet_objSet_self {m : List (String × α)} {k : String}
    (h : hasKey m k = true) (v : α) : objGet (objSet m k v) k = some v := by
  simp only [objSet, h, if_true]
  exact objGet_map_replace_self h v

theorem objGet_map_replace_ne (m : List (String × α)) {k k' : String}
    (hne : k' ≠ k) (v : α) :
    objGet (m.map (fun p => if p.1 == k then (k, v) else p)) k' = objGet m k' := by
  induction m with
  | nil => rfl
  | cons p rest ih =>
      rw [List.map_cons]
      by_cases hpk : p.1 = k
      · rw [if_pos (beq_iff_eq.mpr hpk), objGet_cons, objGet_cons]
        rw [if_neg (by simpa using (fun hc : k = k' => hne hc.symm)),
          if_neg (by simp [hpk]; exact fun hc => hne hc.symm)]
        exact ih
      · rw [if_neg (by simpa using hpk), objGet_cons, objGet_cons]
        by_cases hpk' : p.1 = k'
        · rw [if_pos (beq_iff_eq.mpr hpk'), if_pos (beq_iff_eq.mpr hpk')]
        · rw [if_neg (by simpa using hpk'), if_neg (by simpa using hpk')]
          exact ih

theorem objGet_objSet_ne {m : List (String × α)} {k k' : String}
    (hne : k' ≠ k) (v : α) : objGet (objSet m k v) k' = objGet m k' := by
  by_cases h : hasKey m k
  · simp only [objSet, h, if_true]
    exact objGet_map_replace_ne m hne v
  · rw [objSet_eq_append_of_hasKey_eq_false (Bool.eq_false_iff.mpr h)]
    unfold objGet
    rw [List.find?_append]
    cases hfind : List.find? (fun p => p.1 == k) m with
    | some p =>
        have : List.find? (fun p => p.1 == k') [(k, v)] = none := by
          simp [List.find?, beq_eq_false_iff_ne.mpr (fun hc : k = k' => hne hc.symm)]
        cases hfind' : List.find? (fun p => p.1 == k') m with
        | some q => simp [hfind']
        | none => simp [hfind', this]
    | none =>
        cases hfind' : List.find? (fun p => p.1 == k') m with
        | some q => simp [hfind']
        | none =>
            simp only [hfind', Option.none_or]
            simp [List.find?, beq_eq_false_iff_ne.mpr (fun hc : k = k' => hne hc.symm)]

theorem objDelete_sublist (m : List (String × α)) (k : String) :
    (objDelete m k).Sublist m := List.filter_sublist m

theorem mem_of_mem_objDelete {m : List (String × α)} {k : String} {p : String × α}
    (h : p ∈ objDelete m k) : p ∈ m := List.mem_of_mem_filter h

theorem hasKey_objDelete_self (m : List (String × α)) (k : String) :
    hasKey (objDelete m k) k = false := by
  simp only [hasKey, List.any_eq_false]
  intro p hp
  have := List.of_mem_filter hp
  simpa using this

theorem hasKey_objDelete_ne {m : List (String × α)} {k k' : String} (hne : k' ≠ k) :
    hasKey (objDelete m k) k' = hasKey m k' := by
  rw [Bool.eq_iff_iff]
  simp only [hasKey, List.any_eq_true, objDelete]
  constructor
  · rintro ⟨p, hp, hpk⟩
    exact ⟨p, List.mem_of_mem_filter hp, hpk⟩
  · rintro ⟨p, hp, hpk⟩
    refine ⟨p, List.mem_filter.mpr ⟨hp, ?_⟩, hpk⟩
    have hp1 : p.1 = k' := beq_iff_eq.mp hpk
    simp [hp1, hne]

theorem objDelete_length_add_one {m : List (String × α)} {k : String}
    (hnd : (m.map Prod.fst).Nodup) (h : hasKey m k = true) :
    (objDelete m k).length + 1 = m.length := by
  unfold objDelete
  induction m with
  | nil => simp [hasKey] at h
  | cons p rest ih =>
      rw [List.map_cons, List.nodup_cons] at hnd
      by_cases hpk : p.1 = k
      · have hrest : ∀ q ∈ rest, (!(q.1 == k)) = true := by
          intro q hq
          have hq1 : q.1 ≠ k := by
            intro hc
            exact hnd.1 (by rw [hpk, ← hc]; exact List.mem_map.mpr ⟨q, hq, rfl⟩)
          simp [hq1]
        rw [List.filter_cons]
        simp only [hpk, beq_self_eq_true, Bool.not_true]
        rw [List.filter_eq_self.mpr hrest]
        simp
      · have h' : hasKey rest k = true := by
          rw [hasKey_cons] at h
          simpa [beq_eq_false_iff_ne.mpr hpk] using h
        have ihr := ih hnd.2 h'
        rw [List.filter_cons]
        simp only [beq_eq_false_iff_ne.mpr hpk, Bool.not_false]
        simp only [if_true, List.length_cons]
        omega

theorem mem_of_mem_objValues {m : List (String × α)} {d : α}
    (h : d ∈ objValues m) : ∃ k, (k, d) ∈ m := by
  rcases List.mem_map.mp h with ⟨p, hp, hpd⟩
  exact ⟨p.1, by rwa [show (p.1, d) = p from by rw [← hpd]]⟩

/-! ## Predicate-based update/delete on an empty match set -/

theorem update_no_match (c : Collection) (w : List QEntry) (payload : JSObj)
    (multi : Bool) (now : Nat)
    (h : (objValues c.documents).filter
      (fun d => !d._meta.deleted && matchesQuery (.vObj d.data) w) = []) :
    update c w payload multi now
      = (c, { success := true, error := none, matchedCount := 0, modifiedCount := 0 }) := by
  unfold update
  rw [h]
  cases multi <;> simp

theorem delete_no_match (c : Collection) (w : List QEntry) (hard multi : Bool) (now : Nat)
    (h : (objValues c.documents).filter
      (fun d => !d._meta.deleted && matchesQuery (.vObj d.data) w) = []) :
    delete c w hard multi now
      = (c, { success := true, error := none, deletedCount := 0 }) := by
  unfold delete
  rw [h]
  cases multi <;> cases hard <;> simp

/-! ## Claim C6 (amended): how missing-document situations surface -/

/-- C6 (amended): by-id update and delete on a nonexistent or soft-deleted
id return a failed result carrying the error "Document not found" rather
than throwing, insert with an id already present throws `DUPLICATE_ID`, and
predicate-based update/delete with no matching document silently return a
successful result with zero counts and an unchanged collection. -/
theorem C6_error_surfacing (c : Collection) (id : String) (data payload : JSObj)
    (w : List QEntry) (multi hard : Bool) (now : Nat) :
    (objGet c.documents id = none →
      updateById c id data now
        = (c, { success := false, error := some "Document not found",
                matchedCount := 0, modifiedCount := 0 })
      ∧ deleteById c id hard now
        = (c, { success := false, error := some "Document not found", deletedCount := 0 }))
    ∧ (∀ d, objGet c.documents id = some d → d._meta.deleted = true →
      updateById c id data now
        = (c, { success := false, error := some "Document not found",
                matchedCount := 0, modifiedCount := 0 })
      ∧ deleteById c id hard now
        = (c, { success := false, error := some "Document not found", deletedCount := 0 }))
    ∧ (hasKey c.documents id = true → insert c data id now = .error "DUPLICATE_ID")
    ∧ ((objValues c.documents).filter
        (fun d => !d._meta.deleted && matchesQuery (.vObj d.data) w) = [] →
      update c w payload multi now
        = (c, { success := true, error := none, matchedCount := 0, modifiedCount := 0 })
      ∧ delete c w hard multi now
        = (c, { success := true, error := none, deletedCount := 0 })) := by
  refine ⟨?_, ?_, ?_, ?_⟩
  · intro hnone
    constructor
    · unfold updateById
      rw [hnone]
    · unfold deleteById
      rw [hnone]
  · intro d hsome hdel
    constructor
    · unfold updateById
      rw [hsome]
      simp [hdel]
    · unfold deleteById
      rw [hsome]
      simp [hdel]
  · intro hhas
    unfold insert
    rw [hhas]
    rfl
  · intro hempty
    exact ⟨update_no_match c w payload multi now hempty,
      delete_no_match c w hard multi now hempty⟩

/-- C6 witness: a concrete instantiation of each clause of
`C6_error_surfacing` on the one-document collection. -/
theorem C6_error_surfacing_witness :
    (updateById exCollLive "zz" [("y", Value.vNum 1)] 5
      = (exCollLive, { success := false, error := some "Document not found",
                       matchedCount := 0, modifiedCount := 0 }))
    ∧ (deleteById exCollDel "a" true 5
      = (exCollDel, { success := false, error := some "Document not found", deletedCount := 0 }))
    ∧ (insert exCollLive [("y", Value.vNum 1)] "a" 5 = .error "DUPLICATE_ID")
    ∧ (update exCollLive [QEntry.field "x" (FieldCond.lit (Value.vNum 99))]
        [("y", Value.vNum 1)] false 5
      = (exCollLive, { success := true, error := none, matchedCount := 0, modifiedCount := 0 })) := by
  refine ⟨?_, ?_, ?_, ?_⟩
  · exact ((C6_error_surfacing exCollLive "zz" [("y", Value.vNum 1)] [("y", Value.vNum 1)]
      [] false false 5).1 rfl).1
  · exact ((C6_error_surfacing exCollDel "a" [("y", Value.vNum 1)] [("y", Value.vNum 1)]
      [] false true 5).2.1 _ rfl rfl).2
  · exact (C6_error_surfacing exCollLive "a" [("y", Value.vNum 1)] [("y", Value.vNum 1)]
      [] false false 5).2.2.1 rfl
  · exact ((C6_error_surfacing exCollLive "a" [("y", Value.vNum 1)] [("y", Value.vNum 1)]
      [QEntry.field "x" (FieldCond.lit (Value.vNum 99))] false false 5).2.2.2 rfl).1

/-- C6 counterexample: a predicate-based update addressed to no existing
document does not surface any error: it returns a successful result with
zero counts and leaves the collection untouched, contradicting the claim
that such operations surface a `NotFoundError`. -/
theorem C6_counterexample :
    (update exCollLive [QEntry.field "x" (FieldCond.lit (Value.vNum 99))]
        [("y", Value.vNum 1)] false 5).2.success = true
    ∧ (update exCollLive [QEntry.field "x" (FieldCond.lit (Value.vNum 99))]
        [("y", Value.vNum 1)] false 5).2.error = none
    ∧ (update exCollLive [QEntry.field "x" (FieldCond.lit (Value.vNum 99))]
        [("y", Value.vNum 1)] false 5).1 = exCollLive
    ∧ (delete exCollLive [QEntry.field "x" (FieldCond.lit (Value.vNum 99))]
        false false 5).2.success = true := by
  exact ⟨rfl, rfl, rfl, rfl⟩

/-! ## Claim C5 (amended): hard delete and soft-deleted documents -/

/-- C5 (amended): `deleteById` with `hard = true` physically removes a
*live* document and decrements `documentCount` by one; but a document that
is already soft-deleted is skipped with a failed "Document not found"
result and remains physically present — no hard delete ever removes a
soft-deleted entry. -/
theorem C5_hard_delete (c : Collection) (id : String) (d : Document) (now : Nat)
    (hnd : (c.documents.map Prod.fst).Nodup)
    (hget : objGet c.documents id = some d) :
    (d._meta.deleted = false →
      hasKey (deleteById c id true now).1.documents id = false
      ∧ (deleteById c id true now).1.documents.length + 1 = c.documents.length
      ∧ (deleteById c id true now).1._meta.documentCount = c._meta.documentCount - 1
      ∧ (deleteById c id true now).2 = { success := true, error := none, deletedCount := 1 })
    ∧ (d._meta.deleted = true →
      deleteById c id true now
        = (c, { success := false, error := some "Document not found", deletedCount := 0 })) := by
  have hhas : hasKey c.documents id = true := hasKey_of_objGet_eq_some hget
  constructor
  · intro hlive
    unfold deleteById
    rw [hget]
    simp only [hlive, Bool.false_eq_true, if_false, if_true]
    refine ⟨hasKey_objDelete_self _ _, objDelete_length_add_one hnd hhas, ?_, ?_⟩ <;> trivial
  · intro hdel
    unfold deleteById
    rw [hget]
    simp [hdel]

/-- C5 witness: `C5_hard_delete` instantiated on a live and on a
soft-deleted one-document collection. -/
theorem C5_hard_delete_witness :
    (hasKey (deleteById exCollLive "a" true 7).1.documents "a" = false
      ∧ (deleteById exCollLive "a" true 7).1.documents.length + 1
          = exCollLive.documents.length
      ∧ (deleteById exCollLive "a" true 7).1._meta.documentCount
          = exCollLive._meta.documentCount - 1
      ∧ (deleteById exCollLive "a" true 7).2
          = { success := true, error := none, deletedCount := 1 })
    ∧ deleteById exCollDel "a" true 7
        = (exCollDel, { success := false, error := some "Document not found",
                        deletedCount := 0 }) := by
  constructor
  · exact (C5_hard_delete exCollLive "a" exDocX 7 (by decide) rfl).1 rfl
  · exact (C5_hard_delete exCollDel "a"
      { exDocX with _meta := { exDocX._meta with deleted := true, updatedAt := 3 } }
      7 (by decide) rfl).2 rfl

/-- C5 counterexample: the collection whose only document is soft-deleted.
A subsequent hard delete — by id, or by a match-all predicate with
`hard: true` — does *not* physically remove the entry: both paths skip
soft-deleted documents, the entry stays in the document map and
`documentCount` stays 1, contradicting the claim that a subsequent hard
delete removes soft-deleted entries. -/
theorem C5_counterexample :
    (deleteById exCollDel "a" true 9).2.success = false
    ∧ (deleteById exCollDel "a" true 9).2.deletedCount = 0
    ∧ hasKey (deleteById exCollDel "a" true 9).1.documents "a" = true
    ∧ (deleteById exCollDel "a" true 9).1._meta.documentCount = 1
    ∧ (delete exCollDel [] true true 9).2.deletedCount = 0
    ∧ hasKey (delete exCollDel [] true true 9).1.documents "a" = true
    ∧ (delete exCollDel [] true true 9).1._meta.documentCount = 1 := by
  exact ⟨rfl, rfl, rfl, rfl, rfl, rfl, rfl⟩

/-! ## Claim C10: non-multi update modifies exactly the first match -/

/-- C10: an `update` with `multi` unset, when at least one live document
matches, reports `modifiedCount = 1` and `matchedCount` equal to the number
of live matches, modifies exactly the first match in document-map iteration
order (bumping its `updatedAt`/`version` through `updateDocNow`), and
leaves every other id's entry unchanged. -/
theorem C10_update_first_match (c : Collection) (w : List QEntry) (payload : JSObj)
    (now : Nat) (d0 : Document) (ds : List Document)
    (hids : ∀ p ∈ c.documents, p.2._id = p.1)
    (hmatch : (objValues c.documents).filter
      (fun d => !d._meta.deleted && matchesQuery (.vObj d.data) w) = d0 :: ds) :
    (update c w payload false now).2.modifiedCount = 1
    ∧ (update c w payload false now).2.matchedCount = ds.length + 1
    ∧ objGet (update c w payload false now).1.documents d0._id
        = some (updateDocNow payload now d0)
    ∧ ∀ k, k ≠ d0._id →
        objGet (update c w payload false now).1.documents k = objGet c.documents k := by
  have hd0 : d0 ∈ objValues c.documents := by
    have hmem : d0 ∈ (objValues c.documents).filter
        (fun d => !d._meta.deleted && matchesQuery (.vObj d.data) w) := by
      rw [hmatch]
      exact List.mem_cons_self _ _
    exact List.mem_of_mem_filter hmem
  obtain ⟨k0, hk0⟩ := mem_of_mem_objValues hd0
  have hkid : d0._id = k0 := hids _ hk0
  have hhas : hasKey c.documents d0._id = true := by
    rw [hkid]
    exact hasKey_of_mem hk0
  unfold update
  rw [hmatch]
  simp only [Bool.false_eq_true, if_false, List.take_succ_cons, List.take_zero,
    List.foldl_cons, List.foldl_nil, List.length_cons, List.length_nil]
  refine ⟨?_, ?_, objGet_objSet_self hhas _, fun k hk => objGet_objSet_ne hk _⟩ <;> trivial

/-- C10 witness: on the a/b/c example collection, a non-multi update whose
predicate matches both live documents modifies only the first ("a"). -/
theorem C10_update_first_match_witness :
    (update exCollABC [QEntry.field "x" (FieldCond.ops [QOp.qGte (Value.vNum 1)])]
      [("y", Value.vNum 1)] false 5).2.modifiedCount = 1
    ∧ (update exCollABC [QEntry.field "x" (FieldCond.ops [QOp.qGte (Value.vNum 1)])]
      [("y", Value.vNum 1)] false 5).2.matchedCount = 2 := by
  have h := C10_update_first_match exCollABC
    [QEntry.field "x" (FieldCond.ops [QOp.qGte (Value.vNum 1)])]
    [("y", Value.vNum 1)] 5
    { _id := "a", data := [("x", Value.vNum 1)],
      _meta := { createdAt := 0, updatedAt := 0, version := 1, deleted := false } }
    [{ _id := "b", data := [("x", Value.vNum 5)],
       _meta := { createdAt := 0, updatedAt := 0, version := 1, deleted := false } }]
    (by intro p hp; fin_cases hp <;> rfl) rfl
  exact ⟨h.1, h.2.1⟩

/-! ## Claim C2: the {$inc:{x:3}} update payload -/

/-- C2: evaluating `update` at the claim's input.  The payload
`{$inc:{x:3}}` contains no `$set` key, so `applyUpdate` takes its
plain-merge branch: the resulting document still has `x = 1` and gains a
literal `"$inc"` field, while `version` is bumped from 1 to 2 by the
`update` loop.  The claim's expected `x = 4` does not happen. -/
theorem C2_inc_payload_actual :
    (update exCollLive [] [("$inc", Value.vObj [("x", Value.vNum 3)])] false 5).2.modifiedCount = 1
    ∧ objGet (update exCollLive [] [("$inc", Value.vObj [("x", Value.vNum 3)])] false 5).1.documents "a"
      = some { _id := "a",
               data := [("x", Value.vNum 1), ("$inc", Value.vObj [("x", Value.vNum 3)])],
               _meta := { createdAt := 0, updatedAt := 5, version := 2, deleted := false } } := by
  exact ⟨rfl, rfl⟩

/-! ## Claim C3: top-level keys of a predicate map -/

theorem one_le_qentrySize (e : QEntry) : 1 ≤ qentrySize e := by
  cases e <;> simp only [qentrySize] <;> omega

theorem length_le_querySize (es : List QEntry) : es.length ≤ querySize es := by
  induction es with
  | nil => simp [querySize]
  | cons e es ih =>
      have h1 := one_le_qentrySize e
      simp only [List.length_cons, querySize]
      omega

theorem if_bool_and (b x : Bool) :
    (if b = true then x else false) = ((if b = true then true else false) && x) := by
  cases b <;> simp

theorem matchesQueryFuel_fieldOnly (data : Value) (es : List QEntry)
    (h : ∀ e ∈ es, isFieldEntry e = true) :
    ∀ f, es.length ≤ f →
      matchesQueryFuel f data es = es.all (fun e => matchesQuery data [e]) := by
  induction es with
  | nil => intro f _; cases f <;> rfl
  | cons e es ih =>
      intro f hf
      have he : isFieldEntry e = true := h e (List.mem_cons_self _ _)
      have hes : ∀ e' ∈ es, isFieldEntry e' = true :=
        fun e' he' => h e' (List.mem_cons_of_mem _ he')
      match f with
      | 0 => simp at hf
      | f' + 1 =>
          cases e with
          | qAnd subs => simp [isFieldEntry] at he
          | qOr subs => simp [isFieldEntry] at he
          | qNot subs => simp [isFieldEntry] at he
          | field p c =>
              have hf' : es.length ≤ f' := by
                simp only [List.length_cons] at hf
                omega
              have key :
                  matchesQueryFuel (f' + 1) data (QEntry.field p c :: es)
                    = ((matchesQuery data [QEntry.field p c]) && matchesQueryFuel f' data es) := by
                cases c with
                | lit v =>
                    cases hpass : jsEq (getNestedValue data p) v <;>
                      simp [matchesQueryFuel, matchesQuery, querySize, qentrySize, hpass]
                | ops os =>
                    cases hpass : os.all (fun op => opHolds (getNestedValue data p) op) <;>
                      simp [matchesQueryFuel, matchesQuery, querySize, qentrySize, hpass]
              rw [key, ih hes f' hf', List.all_cons]

/-- C3 (amended): when every top-level key of the predicate map is a field
key, the map matches iff every key individually matches — the conjunction
over all top-level keys — and the result is invariant under permutation of
the keys.  (As soon as a logical-operator key is present the original claim
fails: the `Object.entries` loop returns that key's result immediately,
conjoining only the keys before it and ignoring every key after it — see
the counterexample.) -/
theorem C3_field_conjunction (data : Value) (es : List QEntry)
    (h : ∀ e ∈ es, isFieldEntry e = true) :
    matchesQuery data es = es.all (fun e => matchesQuery data [e])
    ∧ ∀ es', List.Perm es' es → matchesQuery data es' = matchesQuery data es := by
  have main : ∀ es0 : List QEntry, (∀ e ∈ es0, isFieldEntry e = true) →
      matchesQuery data es0 = es0.all (fun e => matchesQuery data [e]) := by
    intro es0 h0
    unfold matchesQuery
    exact matchesQueryFuel_fieldOnly data es0 h0 _ (length_le_querySize es0)
  refine ⟨main es h, ?_⟩
  intro es' hperm
  rw [main es h, main es' (fun e he => h e (hperm.mem_iff.mp he))]
  rw [Bool.eq_iff_iff]
  simp only [List.all_eq_true]
  constructor
  · intro ha e he
    exact ha e (hperm.mem_iff.mpr he)
  · intro ha e he
    exact ha e (hperm.mem_iff.mp he)

/-- C3 witness: a two-field-key predicate map over `{x:1, y:2}`, where the
theorem's conjunction semantics holds. -/
theorem C3_field_conjunction_witness :
    matchesQuery (.vObj [("x", Value.vNum 1), ("y", Value.vNum 2)])
      [QEntry.field "x" (FieldCond.lit (Value.vNum 1)),
       QEntry.field "y" (FieldCond.ops [QOp.qGt (Value.vNum 1)])]
    = ([QEntry.field "x" (FieldCond.lit (Value.vNum 1)),
        QEntry.field "y" (FieldCond.ops [QOp.qGt (Value.vNum 1)])].all
        (fun e => matchesQuery (.vObj [("x", Value.vNum 1), ("y", Value.vNum 2)]) [e])) := by
  exact (C3_field_conjunction (.vObj [("x", Value.vNum 1), ("y", Value.vNum 2)])
    [QEntry.field "x" (FieldCond.lit (Value.vNum 1)),
     QEntry.field "y" (FieldCond.ops [QOp.qGt (Value.vNum 1)])]
    (by intro e he; fin_cases he <;> rfl)).1

/-- C3 counterexample: over the data `{x:1, y:2}`, the predicate map with
the two top-level keys `$or: [{x:1}]` and `y: 5` matches (the `$or` key
returns immediately) even though the key `y: 5` alone does not match; with
the key order swapped the same map does not match.  So the result is
neither the conjunction of all top-level keys nor independent of key
order. -/
theorem C3_counterexample :
    matchesQuery (.vObj [("x", Value.vNum 1), ("y", Value.vNum 2)])
      [QEntry.qOr [[QEntry.field "x" (FieldCond.lit (Value.vNum 1))]],
       QEntry.field "y" (FieldCond.lit (Value.vNum 5))] = true
    ∧ matchesQuery (.vObj [("x", Value.vNum 1), ("y", Value.vNum 2)])
      [QEntry.field "y" (FieldCond.lit (Value.vNum 5))] = false
    ∧ matchesQuery (.vObj [("x", Value.vNum 1), ("y", Value.vNum 2)])
      [QEntry.field "y" (FieldCond.lit (Value.vNum 5)),
       QEntry.qOr [[QEntry.field "x" (FieldCond.lit (Value.vNum 1))]]] = false := by
  exact ⟨rfl, rfl, rfl⟩

/-! ## Claim C7: the documentCount invariant -/

theorem hasKey_append (a b : List (String × α)) (k : String) :
    hasKey (a ++ b) k = (hasKey a k || hasKey b k) := by
  simp [hasKey, List.any_append]

theorem hasKey_congr_keys {a b : List (String × α)}
    (h : a.map Prod.fst = b.map Prod.fst) (k : String) : hasKey a k = hasKey b k := by
  rw [hasKey_eq_any_map, hasKey_eq_any_map, h]

theorem length_eq_of_keys_eq {a b : List (String × α)}
    (h : a.map Prod.fst = b.map Prod.fst) : a.length = b.length := by
  have := congrArg List.length h
  simpa using this

theorem idsMatch_objSet {m : List (String × Document)} {k : String} {v : Document}
    (hids : ∀ p ∈ m, p.2._id = p.1) (hv : v._id = k) :
    ∀ p ∈ objSet m k v, p.2._id = p.1 := by
  intro p hp
  unfold objSet at hp
  by_cases h : hasKey m k
  · rw [if_pos h] at hp
    rcases List.mem_map.mp hp with ⟨q, hq, hpq⟩
    by_cases hqk : q.1 = k
    · rw [← hpq]
      simp [beq_iff_eq.mpr hqk, hv]
    · rw [← hpq]
      simp only [beq_eq_false_iff_ne.mpr hqk, Bool.false_eq_true, if_false]
      exact hids q hq
  · rw [if_neg h] at hp
    rcases List.mem_append.mp hp with hq | hq
    · exact hids p hq
    · have : p = (k, v) := List.mem_singleton.mp hq
      rw [this]
      exact hv

theorem objValues_map_id_eq {m : List (String × Document)}
    (hids : ∀ p ∈ m, p.2._id = p.1) :
    (objValues m).map (fun d => d._id) = m.map Prod.fst := by
  unfold objValues
  rw [List.map_map]
  exact List.map_congr_left (fun p hp => hids p hp)

theorem foldl_objSet_fresh {α β : Type} (g : String × β → α) :
    ∀ (items : List (String × β)) (m : List (String × α)),
      (items.map Prod.fst).Nodup →
      (∀ p ∈ items, hasKey m p.1 = false) →
      items.foldl (fun acc p => objSet acc p.1 (g p)) m
        = m ++ items.map (fun p => (p.1, g p)) := by
  intro items
  induction items with
  | nil => intro m _ _; simp
  | cons p rest ih =>
      intro m hnd hfresh
      rw [List.map_cons, List.nodup_cons] at hnd
      simp only [List.foldl_cons]
      rw [objSet_eq_append_of_hasKey_eq_false (hfresh p (List.mem_cons_self _ _)) _]
      rw [ih (m ++ [(p.1, g p)]) hnd.2 ?fresh]
      · simp
      case fresh =>
        intro q hq
        rw [hasKey_append]
        have h1 : hasKey m q.1 = false := hfresh q (List.mem_cons_of_mem _ hq)
        have h2 : p.1 ≠ q.1 := by
          intro hc
          exact hnd.1 (by rw [hc]; exact List.mem_map.mpr ⟨q, hq, rfl⟩)
        rw [h1, Bool.false_or]
        simp [hasKey, List.any_cons, beq_eq_false_iff_ne.mpr h2]

theorem foldl_objSet_existing (g : Document → Document) (hg : ∀ d, (g d)._id = d._id) :
    ∀ (ds : List Document) (m : List (String × Document)),
      (∀ d ∈ ds, hasKey m d._id = true) →
      (∀ p ∈ m, p.2._id = p.1) →
      (ds.foldl (fun acc d => objSet acc d._id (g d)) m).map Prod.fst = m.map Prod.fst
      ∧ ∀ p ∈ ds.foldl (fun acc d => objSet acc d._id (g d)) m, p.2._id = p.1 := by
  intro ds
  induction ds with
  | nil => intro m _ hids; exact ⟨rfl, hids⟩
  | cons d rest ih =>
      intro m hhas hids
      simp only [List.foldl_cons]
      have hd : hasKey m d._id = true := hhas d (List.mem_cons_self _ _)
      have hkeys1 : (objSet m d._id (g d)).map Prod.fst = m.map Prod.fst :=
        objSet_map_fst_of_hasKey hd _
      have hids1 : ∀ p ∈ objSet m d._id (g d), p.2._id = p.1 :=
        idsMatch_objSet hids (hg d)
      have hhas1 : ∀ d' ∈ rest, hasKey (objSet m d._id (g d)) d'._id = true := by
        intro d' hd'
        rw [hasKey_congr_keys hkeys1]
        exact hhas d' (List.mem_cons_of_mem _ hd')
      obtain ⟨ha, hb⟩ := ih (objSet m d._id (g d)) hhas1 hids1
      exact ⟨ha.trans hkeys1, hb⟩

theorem foldl_objDelete :
    ∀ (ds : List Document) (m : List (String × Document)),
      (m.map Prod.fst).Nodup →
      (∀ p ∈ m, p.2._id = p.1) →
      (∀ d ∈ ds, hasKey m d._id = true) →
      (ds.map (fun d => d._id)).Nodup →
      ((ds.foldl (fun acc d => objDelete acc d._id) m).map Prod.fst).Nodup
      ∧ (∀ p ∈ ds.foldl (fun acc d => objDelete acc d._id) m, p.2._id = p.1)
      ∧ (ds.foldl (fun acc d => objDelete acc d._id) m).length + ds.length = m.length := by
  intro ds
  induction ds with
  | nil => intro m hnd hids _ _; exact ⟨hnd, hids, by simp⟩
  | cons d rest ih =>
      intro m hnd hids hhas hdnd
      rw [List.map_cons, List.nodup_cons] at hdnd
      simp only [List.foldl_cons]
      have hd : hasKey m d._id = true := hhas d (List.mem_cons_self _ _)
      have hnd1 : ((objDelete m d._id).map Prod.fst).Nodup :=
        hnd.sublist ((objDelete_sublist m d._id).map Prod.fst)
      have hids1 : ∀ p ∈ objDelete m d._id, p.2._id = p.1 :=
        fun p hp => hids p (mem_of_mem_objDelete hp)
      have hhas1 : ∀ d' ∈ rest, hasKey (objDelete m d._id) d'._id = true := by
        intro d' hd'
        have hne : d'._id ≠ d._id := by
          intro hc
          exact hdnd.1 (by rw [← hc]; exact List.mem_map.mpr ⟨d', hd', rfl⟩)
        rw [hasKey_objDelete_ne hne]
        exact hhas d' (List.mem_cons_of_mem _ hd')
      obtain ⟨ha, hb, hc⟩ := ih (objDelete m d._id) hnd1 hids1 hhas1 hdnd.2
      refine ⟨ha, hb, ?_⟩
      have hlen := objDelete_length_add_one hnd hd
      simp only [List.length_cons]
      omega

theorem matched_hasKey {c : Collection} {ds : List Document}
    (hids : ∀ p ∈ c.documents, p.2._id = p.1)
    (hsub : ds.Sublist (objValues c.documents)) :
    ∀ d ∈ ds, hasKey c.documents d._id = true := by
  intro d hd
  obtain ⟨k, hk⟩ := mem_of_mem_objValues (hsub.subset hd)
  have : d._id = k := hids _ hk
  rw [this]
  exact hasKey_of_mem hk

theorem matched_ids_nodup {c : Collection} {ds : List Document}
    (hnd : (c.documents.map Prod.fst).Nodup)
    (hids : ∀ p ∈ c.documents, p.2._id = p.1)
    (hsub : ds.Sublist (objValues c.documents)) :
    (ds.map (fun d => d._id)).Nodup := by
  have hv : ((objValues c.documents).map (fun d => d._id)).Nodup := by
    rw [objValues_map_id_eq hids]
    exact hnd
  exact hv.sublist (hsub.map _)

theorem toFirst_sublist (documents : List Document) (multi : Bool) :
    (if multi then documents else documents.take 1).Sublist documents := by
  cases multi
  · simp only [Bool.false_eq_true, if_false]
    exact List.take_sublist 1 documents
  · simp

theorem ite_meta_documentCount (cond : Prop) [Decidable cond]
    (meta : CollectionMetadata) (now : Nat) :
    (if cond then { meta with modifiedAt := now } else meta).documentCount
      = meta.documentCount := by
  split <;> rfl

theorem insert_eq_ok {c : Collection} {data : JSObj} {id : String} {now : Nat}
    (h : hasKey c.documents id = false) :
    insert c data id now = .ok
      ({ c with
          documents := c.documents ++ [(id, freshDocument id data now)],
          _meta := { c._meta with
                      documentCount := c._meta.documentCount + 1,
                      modifiedAt := now } },
        { success := true, insertedIds := [id], insertedCount := 1 }) := by
  unfold insert
  rw [h]
  simp only [Bool.false_eq_true, if_false]
  rw [objSet_eq_append_of_hasKey_eq_false h _]

/-- One operation preserves the collection invariant (given the
ideal-randomness assumption for `insertMany`). -/
theorem collInv_applyOp (c : Collection) (op : DbOp)
    (hinv : collInv c) (hfresh : opFresh c op) : collInv (applyOp c op) := by
  obtain ⟨hnd, hids, hcount⟩ := hinv
  cases op with
  | opInsert id data now =>
      show collInv (match insert c data id now with | .ok (c', _) => c' | .error _ => c)
      cases h : hasKey c.documents id with
      | true =>
          unfold insert
          rw [h]
          exact ⟨hnd, hids, hcount⟩
      | false =>
          rw [insert_eq_ok h]
          refine ⟨?_, ?_, ?_⟩
          · show ((c.documents ++ [(id, freshDocument id data now)]).map Prod.fst).Nodup
            rw [List.map_append, List.nodup_append]
            refine ⟨hnd, by simp, ?_⟩
            intro x hx
            simp only [List.map_cons, List.map_nil, List.mem_singleton]
            intro hxid
            rw [hxid] at hx
            rcases List.mem_map.mp hx with ⟨p, hp, hpk⟩
            have := (hasKey_eq_false_iff _ _).mp h p hp
            exact this hpk
          · intro p hp
            rcases List.mem_append.mp hp with hq | hq
            · exact hids p hq
            · rw [List.mem_singleton.mp hq]
              rfl
          · show c._meta.documentCount + 1
              = ((c.documents ++ [(id, freshDocument id data now)]).length : Int)
            simp only [List.length_append, List.length_singleton]
            push_cast
            omega
  | opInsertMany items now =>
      obtain ⟨hndI, hfreshI⟩ := hfresh
      show collInv (insertMany c items now).1
      unfold insertMany
      simp only
      rw [foldl_objSet_fresh (fun p => freshDocument p.1 p.2 now) items c.documents hndI hfreshI]
      refine ⟨?_, ?_, ?_⟩
      · rw [List.map_append, List.nodup_append]
        refine ⟨hnd, ?_, ?_⟩
        · rw [List.map_map]
          simpa [Function.comp] using hndI
        · intro x hx
          rw [List.map_map]
          simp only [List.mem_map, Function.comp]
          rintro ⟨p, hp, hpk⟩
          have hfp := hfreshI p hp
          rcases List.mem_map.mp hx with ⟨q, hq, hqk⟩
          have := (hasKey_eq_false_iff _ _).mp hfp q hq
          exact this (by rw [hqk, ← hpk])
      · intro p hp
        rcases List.mem_append.mp hp with hq | hq
        · exact hids p hq
        · rcases List.mem_map.mp hq with ⟨q, _, hqp⟩
          rw [← hqp]
          rfl
      · simp only [List.length_append, List.length_map]
        push_cast
        omega
  | opUpdate w payload multi now =>
      show collInv (update c w payload multi now).1
      unfold update
      simp only
      have hsub : (if multi
          then (objValues c.documents).filter
            (fun d => !d._meta.deleted && matchesQuery (.vObj d.data) w)
          else ((objValues c.documents).filter
            (fun d => !d._meta.deleted && matchesQuery (.vObj d.data) w)).take 1).Sublist
          (objValues c.documents) :=
        (toFirst_sublist _ multi).trans (List.filter_sublist _)
      have hhas := matched_hasKey hids hsub
      obtain ⟨hkeys, hids'⟩ := foldl_objSet_existing (updateDocNow payload now)
        (fun d => rfl) _ c.documents hhas hids
      refine ⟨?_, hids', ?_⟩
      · rw [hkeys]
        exact hnd
      · refine Eq.trans (ite_meta_documentCount _ _ _) ?_
        rw [hcount, length_eq_of_keys_eq hkeys]
  | opUpdateById id data now =>
      show collInv (updateById c id data now).1
      unfold updateById
      cases hget : objGet c.documents id with
      | none => exact ⟨hnd, hids, hcount⟩
      | some document =>
          simp only
          cases hdel : document._meta.deleted with
          | true => simp only [if_true]; exact ⟨hnd, hids, hcount⟩
          | false =>
              simp only [Bool.false_eq_true, if_false]
              have hhas : hasKey c.documents id = true := hasKey_of_objGet_eq_some hget
              have hdid : document._id = id := hids _ (objGet_mem_of_eq_some hget)
              refine ⟨?_, idsMatch_objSet hids hdid, ?_⟩
              · rw [objSet_map_fst_of_hasKey hhas _]
                exact hnd
              · rw [objSet_length_of_hasKey hhas _, hcount]
  | opDelete w hard multi now =>
      show collInv (delete c w hard multi now).1
      unfold delete
      simp only
      have hsub : (if multi
          then (objValues c.documents).filter
            (fun d => !d._meta.deleted && matchesQuery (.vObj d.data) w)
          else ((objValues c.documents).filter
            (fun d => !d._meta.deleted && matchesQuery (.vObj d.data) w)).take 1).Sublist
          (objValues c.documents) :=
        (toFirst_sublist _ multi).trans (List.filter_sublist _)
      have hhas := matched_hasKey hids hsub
      cases hard with
      | false =>
          simp only [Bool.false_eq_true, if_false]
          obtain ⟨hkeys, hids'⟩ := foldl_objSet_existing
            (fun d => { d with _meta := { d._meta with deleted := true, updatedAt := now } })
            (fun d => rfl) _ c.documents hhas hids
          exact ⟨by rw [hkeys]; exact hnd, hids',
            by rw [length_eq_of_keys_eq hkeys, hcount]⟩
      | true =>
          simp only [if_true]
          have hdnd := matched_ids_nodup hnd hids hsub
          obtain ⟨ha, hb, hc⟩ := foldl_objDelete _ c.documents hnd hids hhas hdnd
          refine ⟨ha, hb, ?_⟩
          rw [hcount]
          push_cast [← hc]
          omega
  | opDeleteById id hard now =>
      show collInv (deleteById c id hard now).1
      unfold deleteById
      cases hget : objGet c.documents id with
      | none => exact ⟨hnd, hids, hcount⟩
      | some document =>
          simp only
          cases hdel : document._meta.deleted with
          | true => simp only [if_true]; exact ⟨hnd, hids, hcount⟩
          | false =>
              simp only [Bool.false_eq_true, if_false]
              have hhas : hasKey c.documents id = true := hasKey_of_objGet_eq_some hget
              have hdid : document._id = id := hids _ (objGet_mem_of_eq_some hget)
              cases hard with
              | true =>
                  simp only [if_true]
                  refine ⟨hnd.sublist ((objDelete_sublist _ _).map Prod.fst),
                    fun p hp => hids p (mem_of_mem_objDelete hp), ?_⟩
                  have := objDelete_length_add_one hnd hhas
                  rw [hcount]
                  push_cast [← this]
                  omega
              | false =>
                  simp only [Bool.false_eq_true, if_false]
                  refine ⟨?_, idsMatch_objSet hids hdid, ?_⟩
                  · rw [objSet_map_fst_of_hasKey hhas _]
                    exact hnd
                  · rw [objSet_length_of_hasKey hhas _, hcount]

theorem collInv_applyOps (c : Collection) (ops : List DbOp) :
    collInv c → opsFresh c ops → collInv (applyOps c ops) := by
  induction ops generalizing c with
  | nil => intro h _; exact h
  | cons op rest ih =>
      intro h hf
      show collInv (List.foldl applyOp (applyOp c op) rest)
      exact ih (applyOp c op) (collInv_applyOp c op h hf.1) hf.2

/-- C7: starting from any collection satisfying the representation
invariant, any sequence of insert, insertMany, update, soft-delete and
hard-delete operations (with `insertMany`'s randomly generated ids assumed
fresh, as the source assumes) preserves `documentCount = number of entries
in the document map` (soft-deleted entries included).  Moreover a
successful insert adds one to both the entry count and `documentCount`, a
soft delete by id changes neither, and a hard delete by id removes one from
both. -/
theorem C7_documentCount_invariant (c : Collection) (ops : List DbOp)
    (hinv : collInv c) (hfresh : opsFresh c ops) :
    collInv (applyOps c ops)
    ∧ (∀ id data now c' r, insert c data id now = .ok (c', r) →
        c'.documents.length = c.documents.length + 1
        ∧ c'._meta.documentCount = c._meta.documentCount + 1)
    ∧ (∀ id d now, objGet c.documents id = some d → d._meta.deleted = false →
        (deleteById c id false now).1.documents.length = c.documents.length
        ∧ (deleteById c id false now).1._meta.documentCount = c._meta.documentCount)
    ∧ (∀ id d now, objGet c.documents id = some d → d._meta.deleted = false →
        (deleteById c id true now).1.documents.length + 1 = c.documents.length
        ∧ (deleteById c id true now).1._meta.documentCount = c._meta.documentCount - 1) := by
  obtain ⟨hnd, hids, hcount⟩ := hinv
  refine ⟨collInv_applyOps c ops ⟨hnd, hids, hcount⟩ hfresh, ?_, ?_, ?_⟩
  · intro id data now c' r hok
    cases h : hasKey c.documents id with
    | true =>
        unfold insert at hok
        rw [h] at hok
        simp at hok
    | false =>
        rw [insert_eq_ok h] at hok
        simp only [Except.ok.injEq, Prod.mk.injEq] at hok
        obtain ⟨h1, h2⟩ := hok
        rw [← h1]
        constructor
        · simp
        · rfl
  · intro id d now hget hdel
    unfold deleteById
    rw [hget]
    simp only [hdel, Bool.false_eq_true, if_false]
    have hhas : hasKey c.documents id = true := hasKey_of_objGet_eq_some hget
    refine ⟨objSet_length_of_hasKey hhas _, ?_⟩
    trivial
  · intro id d now hget hdel
    unfold deleteById
    rw [hget]
    simp only [hdel, Bool.false_eq_true, if_false, if_true]
    have hhas : hasKey c.documents id = true := hasKey_of_objGet_eq_some hget
    refine ⟨objDelete_length_add_one hnd hhas, ?_⟩
    trivial

/-- C7 witness: the invariant holds after a concrete sequence of insert,
insertMany, update, soft delete and hard delete starting from the empty
collection. -/
theorem C7_documentCount_invariant_witness : collInv (applyOps exCollEmpty exOps) :=
  (C7_documentCount_invariant exCollEmpty exOps
    ⟨by decide, by decide, by decide⟩
    ⟨trivial, ⟨by decide, by decide⟩, trivial, trivial, trivial, trivial⟩).1

/-! ## Claim C8: `find` semantics -/

theorem applyProjection_length (results : List JSObj)
    (p : List String ⊕ List (String × Bool)) :
    (applyProjection results p).length = results.length := by
  cases p with
  | inl keys => simp [applyProjection]
  | inr m => simp [applyProjection]

theorem proj_match_length (X : List JSObj)
    (o : Option (List String ⊕ List (String × Bool))) :
    (match o with | some p => applyProjection X p | none => X).length = X.length := by
  cases o with
  | none => rfl
  | some p => exact applyProjection_length X p

/-- C8: `find` computes `totalCount` as the number of documents matching
the predicate and not excluded as soft-deleted, *before* any pagination
(the spec-side `findSpecTotalCount`); `hasMore` equals
`skip + returnedCount < totalCount`; and on the specification's concrete
example — documents a (x:1), b (x:5) and the soft-deleted c (x:10) with
`find {where: {x: {$gte: 5}}}` — the result is just b's object, with
`totalCount = 1` and `hasMore = false`. -/
theorem C8_find_semantics :
    (∀ (c : Collection) (q : FindQuery),
        (find c q).totalCount = findSpecTotalCount c q)
    ∧ (∀ (c : Collection) (q : FindQuery),
        (find c q).hasMore
          = decide ((q.options.getD emptyQueryOptions).skip.getD 0
              + ((find c q).data.length : Int) < ((find c q).totalCount : Int)))
    ∧ ((find exCollABC { where_ := some exWhereGte5, options := none }).data
        = [[("_id", Value.vStr "b"), ("x", Value.vNum 5)]]
      ∧ (find exCollABC { where_ := some exWhereGte5, options := none }).totalCount = 1
      ∧ (find exCollABC { where_ := some exWhereGte5, options := none }).hasMore = false) := by
  refine ⟨?_, ?_, rfl, rfl, rfl⟩
  · intro c q
    unfold find findSpecTotalCount
    simp only
    cases hw : q.where_ with
    | none =>
        cases hinc : (q.options.getD emptyQueryOptions).includeDeleted with
        | true => simp [hinc]
        | false => simp [hinc]
    | some w =>
        cases hinc : (q.options.getD emptyQueryOptions).includeDeleted with
        | true => simp [hinc]
        | false => simp [hinc, List.filter_filter, Bool.and_comm]
  · intro c q
    unfold find
    simp only
    rw [proj_match_length, List.length_map]

/-! ## Cipher and MAC lemmas -/

theorem byteSub_byteAdd (a k : Byte) : byteSub (byteAdd a k) k = a := by
  unfold byteAdd byteSub byte
  apply Fin.ext
  show ((a.val + k.val) % 256 + 256 - k.val) % 256 = a.val
  have ha := a.isLt
  have hk := k.isLt
  omega

theorem aeadDecrypt_aeadEncrypt (key : Nat) (iv pt : List Byte) :
    aeadDecrypt key iv (aeadEncrypt key iv pt) = pt := by
  unfold aeadEncrypt aeadDecrypt
  rw [List.map_map]
  have h : ((fun b => byteSub b (keystreamByte key iv))
      ∘ (fun b => byteAdd b (keystreamByte key iv))) = id := by
    funext b
    exact byteSub_byteAdd b (keystreamByte key iv)
  rw [h, List.map_id]

theorem bytesToNat_inj : ∀ {l l' : List Byte}, bytesToNat l = bytesToNat l' → l = l' := by
  intro l
  induction l with
  | nil =>
      intro l' h
      cases l' with
      | nil => rfl
      | cons b t =>
          exfalso
          unfold bytesToNat at h
          omega
  | cons b t ih =>
      intro l' h
      cases l' with
      | nil =>
          exfalso
          unfold bytesToNat at h
          omega
      | cons b' t' =>
          unfold bytesToNat at h
          have hb := b.isLt
          have hb' := b'.isLt
          have h1 : b.val = b'.val ∧ bytesToNat t = bytesToNat t' := by
            constructor <;> omega
          rw [Fin.eq_of_val_eq h1.1, ih h1.2]

theorem bytesToNatLE_natToBytesAux :
    ∀ (f n : Nat), n ≤ f → bytesToNatLE (natToBytesAux f n) = n := by
  intro f
  induction f with
  | zero =>
      intro n hn
      have h0 : n = 0 := Nat.le_zero.mp hn
      subst h0
      decide
  | succ f ih =>
      intro n hn
      unfold natToBytesAux
      by_cases h : n < 256
      · rw [if_pos h]
        show (byte n).val + 256 * bytesToNatLE [] = n
        unfold byte bytesToNatLE
        show n % 256 + 256 * 0 = n
        omega
      · rw [if_neg h]
        show (byte (n % 256)).val + 256 * bytesToNatLE (natToBytesAux f (n / 256)) = n
        have hdiv : n / 256 ≤ f := by
          have hlt := Nat.div_lt_self (by omega : 0 < n) (by norm_num : 1 < 256)
          omega
        rw [ih (n / 256) hdiv]
        unfold byte
        show n % 256 % 256 + 256 * (n / 256) = n
        omega

theorem natToBytes_inj {a b : Nat} (h : natToBytes a = natToBytes b) : a = b := by
  have ha := bytesToNatLE_natToBytesAux a a le_rfl
  have hb := bytesToNatLE_natToBytesAux b b le_rfl
  unfold natToBytes at h
  rw [← ha, ← hb, h]

theorem tag_ne_of_data_ne {key : Nat} {iv ct ct' : List Byte} (h : ct ≠ ct') :
    natToBytes (mac key iv ct) ≠ natToBytes (mac key iv ct') := by
  intro hc
  apply h
  have hm : mac key iv ct = mac key iv ct' := natToBytes_inj hc
  unfold mac at hm
  have h2 := (Nat.pair_eq_pair.mp hm).2
  have h3 := (Nat.pair_eq_pair.mp h2).2
  exact bytesToNat_inj h3

theorem verify_tamper_data {mk : String} {salt : List Byte} {ctx : String}
    {c : EncryptedChunk} (hv : verifyChunk mk salt ctx c = true)
    {ct' : List Byte} (hne : ct' ≠ c.data) :
    verifyChunk mk salt ctx { c with data := ct' } = false := by
  unfold verifyChunk at hv ⊢
  cases ht : c.authTag with
  | none => simp [ht] at hv
  | some t =>
      rw [ht] at hv
      show (t == natToBytes (mac (deriveKey mk salt ctx) c.iv ct')) = false
      rw [eq_of_beq hv]
      apply beq_eq_false_iff_ne.mpr
      exact tag_ne_of_data_ne (fun hc => hne hc.symm)

theorem verify_tamper_tag {mk : String} {salt : List Byte} {ctx : String}
    {c : EncryptedChunk} {t : List Byte} (ht : c.authTag = some t)
    (hv : verifyChunk mk salt ctx c = true) {t' : List Byte} (hne : t' ≠ t) :
    verifyChunk mk salt ctx { c with authTag := some t' } = false := by
  unfold verifyChunk at hv ⊢
  rw [ht] at hv
  show (t' == natToBytes (mac (deriveKey mk salt ctx) c.iv c.data)) = false
  apply beq_eq_false_iff_ne.mpr
  intro hc
  exact hne (hc.trans (eq_of_beq hv).symm)

theorem decryptChunksLoop_ok_all {mk : String} {salt : List Byte} :
    ∀ {l : List EncryptedChunk} {out : List (List Byte)},
      decryptChunksLoop mk salt l = .ok out →
      ∀ c ∈ l, verifyChunk mk salt ("chunk_" ++ toString c.index) c = true := by
  intro l
  induction l with
  | nil =>
      intro out _ c hc
      cases hc
  | cons d rest ih =>
      intro out h c hc
      unfold decryptChunksLoop at h
      by_cases hv : verifyChunk mk salt ("chunk_" ++ toString d.index) d = true
      · rw [if_pos hv] at h
        cases hloop : decryptChunksLoop mk salt rest with
        | error e =>
            rw [hloop] at h
            exact absurd h (by simp)
        | ok tl =>
            rcases List.mem_cons.mp hc with hd | hr
            · rw [hd]
              exact hv
            · exact ih hloop c hr
      · rw [if_neg hv] at h
        exact absurd h (by simp)

theorem char_toNat_lt (c : Char) : c.toNat < 1114112 := by
  have h := c.valid
  unfold UInt32.isValidChar Nat.isValidChar at h
  unfold Char.toNat
  rcases h with h | ⟨h1, h2⟩ <;> omega

theorem charsToNat_inj : ∀ {l l' : List Char}, charsToNat l = charsToNat l' → l = l' := by
  intro l
  induction l with
  | nil =>
      intro l' h
      cases l' with
      | nil => rfl
      | cons c t =>
          exfalso
          unfold charsToNat at h
          omega
  | cons c t ih =>
      intro l' h
      cases l' with
      | nil =>
          exfalso
          unfold charsToNat at h
          omega
      | cons c' t' =>
          unfold charsToNat at h
          have hb := char_toNat_lt c
          have hb' := char_toNat_lt c'
          have h1 : c.toNat = c'.toNat ∧ charsToNat t = charsToNat t' := by
            constructor <;> omega
          have hcc : c = c' := by
            apply Char.ext
            apply UInt32.ext
            exact h1.1
          rw [hcc, ih h1.2]

theorem deriveKey_ne_of_key_ne {mk mk' : String} (h : mk ≠ mk')
    (salt : List Byte) (ctx : String) :
    deriveKey mk salt ctx ≠ deriveKey mk' salt ctx := by
  intro hc
  apply h
  unfold deriveKey normalizeMasterKey at hc
  have h1 := (Nat.pair_eq_pair.mp hc).1
  have h2 := charsToNat_inj h1
  cases mk
  cases mk'
  simp_all

theorem verify_wrong_key {D : List Byte} {mk : String} {cs : Nat}
    {salt : List Byte} {ivs : Nat → List Byte} {i : Nat} {mk' : String}
    (h : mk' ≠ mk) :
    verifyChunk mk' salt ("chunk_" ++ toString i) (encChunk D mk cs salt ivs i)
      = false := by
  unfold verifyChunk encChunk
  simp only
  apply beq_eq_false_iff_ne.mpr
  intro hc
  have hm := natToBytes_inj hc
  unfold mac at hm
  have h1 := (Nat.pair_eq_pair.mp hm).1
  exact deriveKey_ne_of_key_ne h salt ("chunk_" ++ toString i) h1.symm

/-- C4: chunked decryption is atomic with respect to authentication — if any
stored chunk fails its GCM tag verification, `decryptDataChunked` returns an
error for the whole container (first conjunct), and `decryptData` likewise
fails when its single chunk does not verify (second conjunct); replacing a
verified chunk's ciphertext by any other ciphertext (third conjunct) or its
tag by any other tag (fourth conjunct) makes verification fail, and a chunk
produced under one passphrase never verifies under a different passphrase
(fifth conjunct), so tampering or a wrong key always surfaces as an
`IntegrityError` and never as wrong plaintext. -/
theorem C4_integrity_abort :
    (∀ (ed : EncryptedData) (mk : String) (c : EncryptedChunk), c ∈ ed.chunks →
        verifyChunk mk ed.metadata.salt ("chunk_" ++ toString c.index) c = false →
        isFailure (decryptDataChunked ed mk) = true)
    ∧ (∀ (ed : EncryptedData) (mk : String) (c0 : EncryptedChunk),
        ed.chunks.head? = some c0 →
        verifyChunk mk ed.metadata.salt "" c0 = false →
        isFailure (decryptData ed mk) = true)
    ∧ (∀ (mk : String) (salt : List Byte) (ctx : String) (c : EncryptedChunk),
        verifyChunk mk salt ctx c = true →
        ∀ ct' : List Byte, ct' ≠ c.data →
          verifyChunk mk salt ctx { c with data := ct' } = false)
    ∧ (∀ (mk : String) (salt : List Byte) (ctx : String) (c : EncryptedChunk)
        (t : List Byte), c.authTag = some t → verifyChunk mk salt ctx c = true →
        ∀ t' : List Byte, t' ≠ t →
          verifyChunk mk salt ctx { c with authTag := some t' } = false)
    ∧ (∀ (D : List Byte) (mk mk' : String) (cs : Nat) (salt : List Byte)
        (ivs : Nat → List Byte) (i : Nat), mk' ≠ mk →
        verifyChunk mk' salt ("chunk_" ++ toString i) (encChunk D mk cs salt ivs i)
          = false) := by
  refine ⟨?_, ?_, ?_, ?_, ?_⟩
  · intro ed mk c hc hcv
    simp only [decryptDataChunked]
    cases hloop : decryptChunksLoop mk ed.metadata.salt
        (List.insertionSort (fun a b => a.index ≤ b.index) ed.chunks) with
    | error e => rfl
    | ok out =>
        exfalso
        have hmem : c ∈ List.insertionSort (fun a b => a.index ≤ b.index) ed.chunks :=
          (List.perm_insertionSort (fun a b => a.index ≤ b.index) ed.chunks).mem_iff.mpr hc
        have hok := decryptChunksLoop_ok_all hloop c hmem
        rw [hok] at hcv
        exact Bool.noConfusion hcv
  · intro ed mk c0 hhead hv
    unfold decryptData
    rw [hhead]
    simp [hv, isFailure]
  · intro mk salt ctx c hv ct' hne
    exact verify_tamper_data hv hne
  · intro mk salt ctx c t ht hv t' hne
    exact verify_tamper_tag ht hv hne
  · intro D mk mk' cs salt ivs i h
    exact verify_wrong_key h

/-! ## Wire-format round-trip lemmas -/

theorem byte_val (n : Nat) : (byte n).val = n % 256 := rfl

theorem parseU32_writeU32 (n : Nat) (r : List Byte) (h : n < 4294967296) :
    parseU32 (writeU32 n ++ r) = some (n, r) := by
  unfold writeU32 parseU32
  simp only [List.cons_append, List.nil_append]
  have hval : (byte (n / 16777216)).val * 16777216 + (byte (n / 65536)).val * 65536
      + (byte (n / 256)).val * 256 + (byte n).val = n := by
    simp only [byte_val]
    omega
  rw [hval]

theorem parseU16_writeU16 (n : Nat) (r : List Byte) (h : n < 65536) :
    parseU16 (writeU16 n ++ r) = some (n, r) := by
  unfold writeU16 parseU16
  simp only [List.cons_append, List.nil_append]
  have hval : (byte (n / 256)).val * 256 + (byte n).val = n := by
    simp only [byte_val]
    omega
  rw [hval]

theorem parseAlg_algByte (a : Alg) : parseAlg (algByte a) = some a := by
  cases a <;> rfl

theorem parseOptNat_encOptNat (o : Option Nat) (r : List Byte)
    (h : ∀ n, o = some n → n < 4294967296) :
    parseOptNat (encOptNat o ++ r) = some (o, r) := by
  cases o with
  | none => rfl
  | some n =>
      unfold encOptNat parseOptNat
      simp only [List.cons_append]
      rw [parseU32_writeU32 n r (h n rfl)]
      simp [byte_val]

theorem decodeMetadata_encodeMetadata (m : EncryptionMetadata)
    (h : metadataFits m = true) :
    decodeMetadata (encodeMetadata m) = some m := by
  have h1 := h
  unfold metadataFits at h1
  rw [Bool.and_eq_true, Bool.and_eq_true, Bool.and_eq_true] at h1
  obtain ⟨⟨⟨ha, hb⟩, hc⟩, _⟩ := h1
  have hcc : ∀ n, m.chunkCount = some n → n < 4294967296 := by
    intro n hn
    rw [hn] at hb
    exact of_decide_eq_true hb
  have hcs : ∀ n, m.chunkSize = some n → n < 4294967296 := by
    intro n hn
    rw [hn] at hc
    exact of_decide_eq_true hc
  have e1 : parseOptNat (encOptNat m.chunkCount ++ encOptNat m.chunkSize)
      = some (m.chunkCount, encOptNat m.chunkSize) :=
    parseOptNat_encOptNat _ _ hcc
  have e2 : parseOptNat (encOptNat m.chunkSize ++ []) = some (m.chunkSize, []) :=
    parseOptNat_encOptNat _ _ hcs
  rw [List.append_nil] at e2
  unfold encodeMetadata decodeMetadata
  simp only [List.append_assoc, List.singleton_append]
  rw [parseU32_writeU32 _ _ (of_decide_eq_true ha)]
  simp only [List.take_left, List.drop_left]
  show (match parseAlg (algByte m.algorithm) with
    | none => none
    | some alg =>
      match parseOptNat (encOptNat m.chunkCount ++ encOptNat m.chunkSize) with
      | none => none
      | some (cc, s4) =>
        match parseOptNat s4 with
        | none => none
        | some (cs, _) =>
            some { salt := m.salt, algorithm := alg, chunkCount := cc, chunkSize := cs })
      = some m
  simp only [parseAlg_algByte, e1, e2]

theorem parseChunk_serializeChunk (c : EncryptedChunk) (r : List Byte)
    (h : chunkFits c = true) :
    parseChunk (serializeChunk c ++ r) = some (c, r) := by
  unfold chunkFits at h
  rw [Bool.and_eq_true, Bool.and_eq_true, Bool.and_eq_true] at h
  obtain ⟨⟨⟨hidx, hiv⟩, hdata⟩, htag⟩ := h
  unfold serializeChunk parseChunk
  cases hat : c.authTag with
  | none =>
      simp only [hat, List.append_assoc]
      rw [parseU32_writeU32 _ _ (of_decide_eq_true hidx)]
      simp only []
      rw [parseU16_writeU16 _ _ (of_decide_eq_true hiv)]
      simp only [List.take_left, List.drop_left]
      rw [parseU16_writeU16 0 _ (by norm_num)]
      simp only [gt_iff_lt, Nat.lt_irrefl, if_false]
      rw [parseU32_writeU32 _ _ (of_decide_eq_true hdata)]
      simp only [List.take_left, List.drop_left]
      rw [← hat]
  | some t =>
      rw [hat] at htag
      rw [Bool.and_eq_true] at htag
      obtain ⟨ht0, ht1⟩ := htag
      simp only [hat, List.append_assoc]
      rw [parseU32_writeU32 _ _ (of_decide_eq_true hidx)]
      simp only []
      rw [parseU16_writeU16 _ _ (of_decide_eq_true hiv)]
      simp only [List.take_left, List.drop_left]
      rw [parseU16_writeU16 _ _ (of_decide_eq_true ht1)]
      simp only [gt_iff_lt, of_decide_eq_true ht0, if_true]
      simp only [List.take_left, List.drop_left]
      rw [parseU32_writeU32 _ _ (of_decide_eq_true hdata)]
      simp only [List.take_left, List.drop_left]
      rw [← hat]

theorem parseChunks_flatten :
    ∀ (cs : List EncryptedChunk) (r : List Byte), cs.all chunkFits = true →
      parseChunks cs.length ((cs.map serializeChunk).flatten ++ r) = some (cs, r) := by
  intro cs
  induction cs with
  | nil =>
      intro r _
      rfl
  | cons c t ih =>
      intro r h
      simp only [List.all_cons, Bool.and_eq_true] at h
      simp only [List.map_cons, List.flatten_cons, List.length_cons, List.append_assoc]
      unfold parseChunks
      rw [parseChunk_serializeChunk c _ h.1]
      simp only []
      rw [ih r h.2]

theorem deserialize_serialize (ed : EncryptedData) (h : wellFormedED ed = true) :
    deserializeEncryptedData (serializeEncryptedData ed) = some ed := by
  unfold wellFormedED at h
  rw [Bool.and_eq_true, Bool.and_eq_true] at h
  obtain ⟨⟨hmeta, hchunks⟩, hcount⟩ := h
  have hlen : (encodeMetadata ed.metadata).length < 4294967296 := by
    have hm2 := hmeta
    unfold metadataFits at hm2
    rw [Bool.and_eq_true] at hm2
    exact of_decide_eq_true hm2.2
  unfold serializeEncryptedData deserializeEncryptedData
  simp only [List.append_assoc]
  rw [parseU32_writeU32 _ _ hlen]
  simp only [List.take_left, List.drop_left]
  rw [decodeMetadata_encodeMetadata ed.metadata hmeta]
  simp only []
  have hn : chunkCountRead ed.metadata = ed.chunks.length := eq_of_beq hcount
  rw [hn]
  have hp := parseChunks_flatten ed.chunks [] hchunks
  rw [List.append_nil] at hp
  rw [hp]

/-! ## Decryption lemmas -/

theorem verify_encChunk (data : List Byte) (mk : String) (cs : Nat)
    (salt : List Byte) (ivs : Nat → List Byte) (i : Nat) :
    verifyChunk mk salt ("chunk_" ++ toString i) (encChunk data mk cs salt ivs i)
      = true := by
  unfold verifyChunk encChunk
  simp

theorem decryptChunksLoop_map_encChunk (D : List Byte) (mk : String) (cs : Nat)
    (salt : List Byte) (ivs : Nat → List Byte) :
    ∀ l : List Nat,
      decryptChunksLoop mk salt (l.map (encChunk D mk cs salt ivs))
        = .ok (l.map (fun i => (D.drop (i * cs)).take cs)) := by
  intro l
  induction l with
  | nil => rfl
  | cons i t ih =>
      simp only [List.map_cons]
      unfold decryptChunksLoop
      have hidx : (encChunk D mk cs salt ivs i).index = i := rfl
      rw [hidx, if_pos (verify_encChunk D mk cs salt ivs i), ih]
      simp only []
      have hiv : (encChunk D mk cs salt ivs i).iv = ivs i := rfl
      have hdata : (encChunk D mk cs salt ivs i).data
          = aeadEncrypt (deriveKey mk salt ("chunk_" ++ toString i)) (ivs i)
              ((D.drop (i * cs)).take cs) := rfl
      rw [hiv, hdata, aeadDecrypt_aeadEncrypt]

theorem range_chunks_flatten {α : Type} :
    ∀ (n : Nat) (D : List α) (cs : Nat), D.length ≤ n * cs →
      ((List.range n).map (fun i => (D.drop (i * cs)).take cs)).flatten = D := by
  intro n
  induction n with
  | zero =>
      intro D cs h
      simp only [Nat.zero_mul, Nat.le_zero, List.length_eq_zero] at h
      rw [h]
      rfl
  | succ n ih =>
      intro D cs h
      rw [List.range_succ_eq_map]
      simp only [List.map_cons, List.map_map, List.flatten_cons, Nat.zero_mul,
        List.drop_zero]
      have hmap : (List.range n).map ((fun i => (D.drop (i * cs)).take cs) ∘ Nat.succ)
          = (List.range n).map (fun i => ((D.drop cs).drop (i * cs)).take cs) := by
        apply List.map_congr_left
        intro i _
        simp only [Function.comp]
        rw [List.drop_drop, Nat.succ_mul, Nat.add_comm (i * cs) cs]
      have hlen2 : (D.drop cs).length ≤ n * cs := by
        rw [List.length_drop]
        have hs : (n + 1) * cs = n * cs + cs := by
          rw [Nat.add_mul, Nat.one_mul]
        omega
      rw [hmap, ih (D.drop cs) cs hlen2]
      exact List.take_append_drop cs D

theorem length_le_ceil_mul (len cs : Nat) (hcs : 0 < cs) :
    len ≤ ((len + cs - 1) / cs) * cs := by
  rcases Nat.eq_zero_or_pos len with h0 | h0
  · simp [h0]
  · have hdm := Nat.div_add_mod (len + cs - 1) cs
    have hmod : (len + cs - 1) % cs < cs := Nat.mod_lt _ hcs
    have hcomm : ((len + cs - 1) / cs) * cs = cs * ((len + cs - 1) / cs) :=
      Nat.mul_comm _ _
    omega

theorem two_le_ceil (len cs : Nat) (hcs : 0 < cs) (h : cs < len) :
    1 < (len + cs - 1) / cs := by
  have h2 : 2 ≤ (len + cs - 1) / cs := by
    rw [Nat.le_div_iff_mul_le hcs]
    omega
  omega

theorem chunks_sorted_lt (D : List Byte) (mk : String) (cs : Nat)
    (salt : List Byte) (ivs : Nat → List Byte) (n : Nat) :
    ((List.range n).map (encChunk D mk cs salt ivs)).Pairwise
      (fun a b => a.index < b.index) := by
  rw [List.pairwise_map]
  exact List.pairwise_lt_range n

theorem insertionSort_eq_of_perm_of_pairwise_lt {cs l : List EncryptedChunk}
    (hp : List.Perm cs l) (hs : l.Pairwise (fun a b => a.index < b.index)) :
    List.insertionSort (fun a b => a.index ≤ b.index) cs = l := by
  haveI : IsTotal EncryptedChunk (fun a b => a.index ≤ b.index) :=
    ⟨fun a b => Nat.le_total a.index b.index⟩
  haveI : IsTrans EncryptedChunk (fun a b => a.index ≤ b.index) :=
    ⟨fun _ _ _ h h' => Nat.le_trans h h'⟩
  haveI : IsAntisymm EncryptedChunk (fun a b => a.index < b.index) :=
    ⟨fun a b h h' => absurd (Nat.lt_trans h h') (Nat.lt_irrefl _)⟩
  have hperm : List.Perm (List.insertionSort (fun a b => a.index ≤ b.index) cs) l :=
    (List.perm_insertionSort (fun a b => a.index ≤ b.index) cs).trans hp
  have hsorted : (List.insertionSort (fun a b => a.index ≤ b.index) cs).Sorted
      (fun a b => a.index ≤ b.index) :=
    List.sorted_insertionSort (fun a b => a.index ≤ b.index) cs
  have hnd_l : ((l.map (fun c => c.index)).Nodup) :=
    List.pairwise_map.mpr (hs.imp (fun h => Nat.ne_of_lt h))
  have hnd_s : (((List.insertionSort (fun a b => a.index ≤ b.index) cs).map
      (fun c => c.index)).Nodup) := (hperm.map (fun c => c.index)).nodup_iff.mpr hnd_l
  have hstrict : (List.insertionSort (fun a b => a.index ≤ b.index) cs).Pairwise
      (fun a b => a.index < b.index) := by
    have h2 := List.pairwise_map.mp hnd_s
    exact (hsorted.and h2).imp (fun h => Nat.lt_of_le_of_ne h.1 h.2)
  exact List.eq_of_perm_of_sorted hperm hstrict hs

theorem decryptData_encryptData (D : List Byte) (mk : String)
    (salt iv : List Byte) :
    decryptData (encryptData D mk salt iv) mk = .ok D := by
  unfold decryptData encryptData verifyChunk
  simp only [List.head?]
  simp
  exact aeadDecrypt_aeadEncrypt _ _ D

theorem decryptDataChunked_perm (D : List Byte) (mk : String) (cs : Nat)
    (salt : List Byte) (ivs : Nat → List Byte) (chunks' : List EncryptedChunk)
    (hp : List.Perm chunks'
      ((List.range ((D.length + cs - 1) / cs)).map (encChunk D mk cs salt ivs)))
    (hcs : 0 < cs) :
    decryptDataChunked
      { metadata := (encryptDataChunked D mk cs salt ivs).metadata,
        chunks := chunks' } mk = .ok D := by
  unfold decryptDataChunked
  simp only []
  rw [insertionSort_eq_of_perm_of_pairwise_lt hp
    (chunks_sorted_lt D mk cs salt ivs ((D.length + cs - 1) / cs))]
  have hsalt : (encryptDataChunked D mk cs salt ivs).metadata.salt = salt := rfl
  rw [hsalt, decryptChunksLoop_map_encChunk D mk cs salt ivs
    (List.range ((D.length + cs - 1) / cs))]
  simp only []
  rw [range_chunks_flatten ((D.length + cs - 1) / cs) D cs
    (length_le_ceil_mul D.length cs hcs)]

set_option maxRecDepth 40000

theorem C4_integrity_abort_witness :
    isFailure (decryptDataChunked exBadED "k") = true
    ∧ isFailure (decryptData exBadED "k") = true :=
  ⟨C4_integrity_abort.1 exBadED "k" exBadChunk (by decide) (by decide),
   C4_integrity_abort.2.1 exBadED "k" exBadChunk rfl (by decide)⟩

/-- C1: the encrypt/decrypt round trip — for every byte buffer `D`,
passphrase `P`, positive chunk size `s`, salt and IV source,
`decryptAuto (encryptAuto D P s) P` returns exactly `D`; the hypothesis
`wellFormedED` says the produced container fits the wire format's
fixed-width length fields (the real `writeUIntBE` throws otherwise), and
the statement covers both the simple path (`D.length ≤ s`) and the chunked
path (`D.length > s`), which the proof treats separately. -/
theorem C1_encrypt_decrypt_round_trip (D : List Byte) (P : String) (s : Nat)
    (salt : List Byte) (ivs : Nat → List Byte)
    (hs : 0 < s)
    (hfit : wellFormedED (encAutoContainer D P s salt ivs) = true) :
    decryptAuto (encryptAuto D P s salt ivs) P = .ok D := by
  by_cases hlen : D.length ≤ s
  · have hser : encryptAuto D P s salt ivs
        = serializeEncryptedData (encryptData D P salt (ivs 0)) := by
      unfold encryptAuto
      rw [if_pos hlen]
    have hed : encAutoContainer D P s salt ivs = encryptData D P salt (ivs 0) := by
      unfold encAutoContainer
      rw [if_pos hlen]
    rw [hed] at hfit
    rw [hser]
    unfold decryptAuto
    rw [deserialize_serialize _ hfit]
    simp only []
    have hcc : (encryptData D P salt (ivs 0)).metadata.chunkCount = none := rfl
    rw [hcc]
    simp only []
    exact decryptData_encryptData D P salt (ivs 0)
  · have hser : encryptAuto D P s salt ivs
        = serializeEncryptedData (encryptDataChunked D P s salt ivs) := by
      unfold encryptAuto
      rw [if_neg hlen]
    have hed : encAutoContainer D P s salt ivs
        = encryptDataChunked D P s salt ivs := by
      unfold encAutoContainer
      rw [if_neg hlen]
    rw [hed] at hfit
    rw [hser]
    unfold decryptAuto
    rw [deserialize_serialize _ hfit]
    simp only []
    have hcc : (encryptDataChunked D P s salt ivs).metadata.chunkCount
        = some ((D.length + s - 1) / s) := rfl
    rw [hcc]
    simp only []
    have hlt : s < D.length := Nat.lt_of_not_le hlen
    rw [if_pos (two_le_ceil D.length s hs hlt)]
    exact decryptDataChunked_perm D P s salt ivs _ (List.Perm.refl _) hs

theorem C1_encrypt_decrypt_round_trip_witness :
    (0 < 4 ∧ wellFormedED (encAutoContainer exData "k" 4 exSalt exIvs) = true
      ∧ decryptAuto (encryptAuto exData "k" 4 exSalt exIvs) "k" = .ok exData)
    ∧ (0 < 2 ∧ wellFormedED (encAutoContainer exData "k" 2 exSalt exIvs) = true
      ∧ decryptAuto (encryptAuto exData "k" 2 exSalt exIvs) "k" = .ok exData) :=
  ⟨⟨by decide, by decide,
    C1_encrypt_decrypt_round_trip exData "k" 4 exSalt exIvs (by decide) (by decide)⟩,
   ⟨by decide, by decide,
    C1_encrypt_decrypt_round_trip exData "k" 2 exSalt exIvs (by decide) (by decide)⟩⟩

/-- C9: chunked decryption is invariant under reordering of the stored
chunk records — serializing the metadata of a chunked encryption of `D`
together with any permutation of its chunks, then deserializing and
decrypting, still returns exactly `D` (for `s < D.length` the stored
`chunkCount` exceeds 1 so `decryptAuto` takes the chunked path, which sorts
the chunks by their `index` field before decrypting and concatenating). -/
theorem C9_chunk_reorder (D : List Byte) (P : String) (s : Nat)
    (salt : List Byte) (ivs : Nat → List Byte) (chunks' : List EncryptedChunk)
    (hs : 0 < s) (hlen : s < D.length)
    (hperm : List.Perm chunks' (encryptDataChunked D P s salt ivs).chunks)
    (hfit : wellFormedED { metadata := (encryptDataChunked D P s salt ivs).metadata, chunks := chunks' } = true) :
    decryptAuto (serializeEncryptedData { metadata := (encryptDataChunked D P s salt ivs).metadata, chunks := chunks' }) P = .ok D := by
  unfold decryptAuto
  rw [deserialize_serialize _ hfit]
  simp only []
  have hcc : (encryptDataChunked D P s salt ivs).metadata.chunkCount
      = some ((D.length + s - 1) / s) := rfl
  rw [hcc]
  simp only []
  rw [if_pos (two_le_ceil D.length s hs hlen)]
  exact decryptDataChunked_perm D P s salt ivs chunks' hperm hs

theorem C9_chunk_reorder_witness :
    decryptAuto (serializeEncryptedData { metadata := (encryptDataChunked exData "k" 1 exSalt exIvs).metadata, chunks := (encryptDataChunked exData "k" 1 exSalt exIvs).chunks.reverse }) "k" = .ok exData :=
  C9_chunk_reorder exData "k" 1 exSalt exIvs
    (encryptDataChunked exData "k" 1 exSalt exIvs).chunks.reverse
    (by decide) (by decide) (by decide) (by decide)

end Blooby
